import Mathlib

/-!
Verification development for the covenant-extraction repository.

We shallowly embed the two extraction pipelines:

* Design A (line-window): `src/covenant_extractor/regex_patterns.py` and
  `src/covenant_extractor/extractor.py` (`normalize_target`, `is_heading_line`,
  `_find_section_bounds`, `extract_covenants_from_text`, `llm_extract_covenants`).
* Design B (span-based): `covenant-extraction/src/regex_extractor.py`
  (`_extract_full_section`, `_calculate_confidence`, `_deduplicate_sections`,
  `extract_sections`, `extract_by_type`).

Python strings are modelled as Lean `String`/`List Char` with ASCII semantics for
case mapping and whitespace (the repository only feeds ASCII legal text through
these helpers).  Python floats are modelled as exact rationals `ℚ`; at each site
where a float comparison occurs we use the exact rational comparison, which
agrees with the double-precision comparison away from ties (and at the ties
that the scorer thresholds can reach, see the comments at the definitions).
Regular-expression *searches of the target/boundary patterns* that the claims
do not constrain are abstracted as oracle parameters (the claims quantify over
their results); the heading regex `SECTION_HEADING_PATTERN`, which claims C2/C3
constrain directly, is compiled faithfully to an executable matcher.
-/

/-- ASCII whitespace, as recognised by Python's `str.strip`, `str.split` and
the regex class `\s` on ASCII text. -/
def isPySpace (c : Char) : Bool :=
  c = ' ' || c = '\t' || c = '\n' || c = '\r' || c = '\x0b' || c = '\x0c'

/-- Python `str.strip()`: remove leading and trailing whitespace. -/
def pyStrip (l : List Char) : List Char :=
  (l.dropWhile isPySpace).rdropWhile isPySpace

/-- Python `str.lower()` on one ASCII character. -/
def lowerChar (c : Char) : Char :=
  if c.isUpper then Char.ofNat (c.toNat + 32) else c

/-- Python `str.lower()` over a character list. -/
def pyLower (l : List Char) : List Char := l.map lowerChar

/-- Python `re.sub(r"\s+", " ", s)`: collapse every maximal whitespace run
to a single space. -/
def collapseWs : List Char → List Char
  | [] => []
  | c :: rest =>
    if isPySpace c then ' ' :: collapseWs (rest.dropWhile isPySpace)
    else c :: collapseWs rest
termination_by l => l.length
decreasing_by
  · exact Nat.lt_succ_of_le (List.dropWhile_sublist _).length_le
  · exact Nat.lt_succ_self _

/-- Python `str.replace("-", "-")` (the source applies this identity
replacement inside `normalize_target`); for a one-character pattern the
replacement is a character map. -/
def replaceHyphen (l : List Char) : List Char :=
  l.map (fun c => if c = '-' then '-' else c)

/-- `normalize_target` from `src/covenant_extractor/regex_patterns.py`:
`re.sub(r"\s+", " ", name.strip().lower().replace("-", "-")).strip()`. -/
def normalize_target (name : String) : String :=
  ⟨pyStrip (collapseWs (replaceHyphen (pyLower (pyStrip name.data))))⟩

/-- Python `str.split()` (no separator): split on whitespace runs, dropping
empty pieces. -/
def pySplit : List Char → List (List Char)
  | [] => []
  | c :: rest =>
    if isPySpace c then pySplit rest
    else (c :: rest.takeWhile (fun d => !isPySpace d)) ::
      pySplit (rest.dropWhile (fun d => !isPySpace d))
termination_by l => l.length
decreasing_by
  · exact Nat.lt_succ_self _
  · exact Nat.lt_succ_of_le (List.dropWhile_sublist _).length_le

/-! ## Heading detector (`is_heading_line`, `src/covenant_extractor/regex_patterns.py`)

`SECTION_HEADING_PATTERN = re.compile(r"(?mi)^\s*(?:Section\s+\d+(?:\.\d+)*)\s+[A-Z][^\n]*$")`.
On a newline-free line, `search` must match at position 0 (the `^` anchor) and
`[^\n]*$` always succeeds, so the pattern compiles to the deterministic matcher
below.  Note the `i` flag: `Section` matches in any case and the class `[A-Z]`
matches both cases of ASCII letters. -/

/-- Match a fixed lowercase pattern case-insensitively, returning the rest. -/
def matchCaseless : List Char → List Char → Option (List Char)
  | [], s => some s
  | _ :: _, [] => none
  | p :: ps, c :: cs => if lowerChar c = p then matchCaseless ps cs else none

/-- Consume `(?:\.\d+)*` greedily (greedy = the regex language here, since the
follower `\s` is disjoint from `.` and digits). -/
def eatDotGroups : List Char → List Char
  | '.' :: c :: rest =>
    if c.isDigit then eatDotGroups ((c :: rest).dropWhile Char.isDigit)
    else '.' :: c :: rest
  | l => l
termination_by l => l.length
decreasing_by
  have h := (@List.dropWhile_sublist _ (c :: rest) Char.isDigit).length_le
  simp only [List.length_cons] at h ⊢
  omega

/-- `SECTION_HEADING_PATTERN.search(line)` truthiness for a newline-free line. -/
def parseEnumHeading (line : List Char) : Bool :=
  match matchCaseless "section".data (line.dropWhile isPySpace) with
  | none => false
  | some s2 =>
    if (s2.takeWhile isPySpace).isEmpty then false
    else
      let s3 := s2.dropWhile isPySpace
      if (s3.takeWhile Char.isDigit).isEmpty then false
      else
        let s4 := eatDotGroups (s3.dropWhile Char.isDigit)
        if (s4.takeWhile isPySpace).isEmpty then false
        else
          match s4.dropWhile isPySpace with
          | [] => false
          | c :: _ => c.isAlpha

/-- The character class `[A-Z0-9 &/\-_,\.\(\)]` of the all-caps heuristic. -/
def allCapsChar (c : Char) : Bool :=
  ('A' ≤ c && c ≤ 'Z') || ('0' ≤ c && c ≤ '9') || c = ' ' || c = '&' || c = '/' ||
    c = '-' || c = '_' || c = ',' || c = '.' || c = '(' || c = ')'

/-- The title-case heuristic on the stripped line: at most 120 characters,
at least two whitespace-delimited words, and `caps / max(1, len(words)) > 0.6`.
The float comparison is modelled by the equivalent integer comparison
`5 * caps > 3 * max(1, len(words))`: at `caps/n = 3/5` both Python sides round
to the same double (so `>` is false, as here), and otherwise the gap is at
least `1/(5n) ≥ 1/600`, far above double rounding error. -/
def titleCaseB (stripped : List Char) : Bool :=
  if stripped.length ≤ 120 then
    let words := pySplit stripped
    let caps := (words.filter (fun w => (w.headD ' ').isUpper)).length
    2 ≤ words.length && 3 * max 1 words.length < 5 * caps
  else false

/-- `is_heading_line` from `src/covenant_extractor/regex_patterns.py`. -/
def is_heading_line (line : String) : Bool :=
  if parseEnumHeading line.data then true
  else
    let stripped := pyStrip line.data
    if 8 ≤ stripped.length && !stripped.isEmpty && stripped.all allCapsChar then true
    else titleCaseB stripped

/-! ## Design A: line-window extractor (`src/covenant_extractor/extractor.py`) -/

/-- The `CovenantSection` dataclass of Design A (line coordinates). -/
structure CovenantSectionA where
  target : String
  title : String
  start_line : Nat
  end_line : Nat
  text : String
deriving DecidableEq, Repr

/-- Python `str.splitlines()` for ASCII text (`\n`, `\r\n`, `\r` breaks;
no trailing empty line for a terminal break). -/
def splitLinesList : List Char → List (List Char)
  | [] => []
  | '\n' :: rest => [] :: splitLinesList rest
  | '\r' :: '\n' :: rest => [] :: splitLinesList rest
  | '\r' :: rest => [] :: splitLinesList rest
  | c :: rest =>
    match splitLinesList rest with
    | [] => [[c]]
    | l :: ls => (c :: l) :: ls

/-- `_split_lines`: `text.splitlines()`. -/
def _split_lines (text : String) : List String :=
  (splitLinesList text.data).map (fun l => ⟨l⟩)

/-- `_find_heading_indices`: indices of lines flagged by `is_heading_line`. -/
def _find_heading_indices (lines : List String) : List Nat :=
  (lines.enum.filter (fun p => is_heading_line p.2)).map Prod.fst

/-- `_find_section_bounds`: from the candidate line to the line before the next
heading, or a `max_section_lines` window, whichever ends first. -/
def _find_section_bounds (lines : List String) (candidate_start_index : Nat)
    (heading_indices : List Nat) (max_section_lines : Nat) : Nat × Nat :=
  let start_index := candidate_start_index
  let end0 := min (lines.length - 1) (start_index + max_section_lines)
  match heading_indices.find? (fun nh => decide (start_index < nh)) with
  | some nh => (start_index, min end0 (nh - 1))
  | none => (start_index, end0)

/-- The loop body of `extract_covenants_from_text` for one enumerated line:
skip blank lines, and on a pattern match build the `CovenantSection` from the
bounds returned by `_find_section_bounds`. -/
def lineSection (lines : List String) (heading_indices : List Nat)
    (max_section_lines : Nat) (k : String) (p : String → Bool)
    (il : Nat × String) : Option CovenantSectionA :=
  if (pyStrip il.2.data).isEmpty then none
  else if p il.2 then
    let bounds := _find_section_bounds lines il.1 heading_indices max_section_lines
    some { target := k
           title := ⟨pyStrip il.2.data⟩
           start_line := bounds.1 + 1
           end_line := bounds.2 + 1
           text := ⟨pyStrip (String.intercalate "\n"
             ((lines.drop bounds.1).take (bounds.2 + 1 - bounds.1))).data⟩ }
  else none

/-- `extract_covenants_from_text`, with the dict `compiled` produced by
`build_target_regexes` abstracted as an association list from canonical keys to
line matchers (the truthiness of `pattern.search(line)`); the claims about this
function hold for every matcher.  `results` is initialised with exactly the
keys of `compiled` (both dicts are keyed by `normalize_target` over `targets`
in the source, in the same order). -/
def extract_covenants_from_text (compiled : List (String × (String → Bool)))
    (text : String) (max_section_lines : Nat) :
    List (String × List CovenantSectionA) :=
  let lines := _split_lines text
  let heading_indices := _find_heading_indices lines
  compiled.map (fun kp =>
    (kp.1, lines.enum.filterMap (lineSection lines heading_indices max_section_lines kp.1 kp.2)))

/-! ## Design B: span-based extractor (`covenant-extraction/src/regex_extractor.py`)

The per-target regex *searches* (`re.finditer` over the whole text) and the
boundary-pattern searches are abstracted as oracles `fd` and `bm`; all claims
about this design quantify over their results.  Everything downstream of the
matches (`_extract_full_section`, `_calculate_confidence`, the `0.3` filter and
`_deduplicate_sections`) is embedded faithfully. -/

/-- The `CovenantSection` dataclass of Design B (character coordinates,
`confidence` float modelled as `ℚ`). -/
structure CovenantSectionB where
  section_type : String
  title : String
  content : String
  start_pos : Nat
  end_pos : Nat
  confidence : ℚ
deriving DecidableEq, Repr

/-- One `re.Match`: `m.start()`, `m.end()`, and `m.group(1)` when the pattern
has groups (all patterns in the table have two groups). -/
structure RMatch where
  mstart : Nat
  mend : Nat
  group1 : Option String
deriving DecidableEq, Repr

/-- One entry of `RegexCovenantExtractor.covenant_patterns`; `display` is the
precomputed `covenant_type.replace('_', ' ').title()` fallback title. -/
structure CovenantConfig where
  ckey : String
  display : String
  patterns : List String
  keywords : List String
  section_indicators : List String
deriving Repr

/-- The `covenant_patterns` entry for `restricted_payments`. -/
def cfg_restricted_payments : CovenantConfig :=
  { ckey := "restricted_payments", display := "Restricted Payments"
    patterns :=
      [ "(?i)(restricted\\s+payments?|dividend\\s+restrictions?|distribution\\s+limitations?)[:\\s]*([^.]+(?:\\.[^.]+)\x7b0,10\x7d)"
      , "(?i)section\\s*\\d+\\.?\\d*\\s*[-–—]?\\s*(restricted\\s+payments?|limitations?\\s+on\\s+dividends?)[:\\s]*([^.]+(?:\\.[^.]+)\x7b0,10\x7d)"
      , "(?i)(?:covenants?\\s+regarding|limitations?\\s+on)\\s+(payments?|dividends?|distributions?)[:\\s]*([^.]+(?:\\.[^.]+)\x7b0,10\x7d)" ]
    keywords := ["restricted payment", "dividend", "distribution", "payment restriction"]
    section_indicators := ["shall not", "may not", "prohibited", "limitation", "restriction"] }

/-- The `covenant_patterns` entry for `change_of_control`. -/
def cfg_change_of_control : CovenantConfig :=
  { ckey := "change_of_control", display := "Change Of Control"
    patterns :=
      [ "(?i)(change\\s+(?:of|in)\\s+control)[:\\s]*([^.]+(?:\\.[^.]+)\x7b0,10\x7d)"
      , "(?i)section\\s*\\d+\\.?\\d*\\s*[-–—]?\\s*(change\\s+(?:of|in)\\s+control)[:\\s]*([^.]+(?:\\.[^.]+)\x7b0,10\x7d)"
      , "(?i)(?:upon|in\\s+the\\s+event\\s+of)\\s+(?:a\\s+)?(change\\s+(?:of|in)\\s+control)[:\\s]*([^.]+(?:\\.[^.]+)\x7b0,10\x7d)" ]
    keywords := ["change of control", "change in control", "control change", "acquisition"]
    section_indicators := ["means", "shall mean", "defined as", "constitutes", "triggers"] }

/-- The `covenant_patterns` entry for `debt_incurrence`. -/
def cfg_debt_incurrence : CovenantConfig :=
  { ckey := "debt_incurrence", display := "Debt Incurrence"
    patterns :=
      [ "(?i)(incurrence\\s+of\\s+(?:debt|indebtedness)|debt\\s+incurrence)[:\\s]*([^.]+(?:\\.[^.]+)\x7b0,10\x7d)"
      , "(?i)section\\s*\\d+\\.?\\d*\\s*[-–—]?\\s*(limitations?\\s+on\\s+(?:debt|indebtedness))[:\\s]*([^.]+(?:\\.[^.]+)\x7b0,10\x7d)"
      , "(?i)(additional\\s+(?:debt|indebtedness)|borrowing\\s+restrictions?)[:\\s]*([^.]+(?:\\.[^.]+)\x7b0,10\x7d)" ]
    keywords := ["debt", "indebtedness", "borrowing", "leverage", "debt incurrence"]
    section_indicators := ["shall not incur", "may not incur", "limitation", "ratio", "permitted"] }

/-- The `covenant_patterns` entry for `asset_sales`. -/
def cfg_asset_sales : CovenantConfig :=
  { ckey := "asset_sales", display := "Asset Sales"
    patterns :=
      [ "(?i)(asset\\s+sales?|sale\\s+of\\s+assets?|disposition\\s+of\\s+assets?)[:\\s]*([^.]+(?:\\.[^.]+)\x7b0,10\x7d)"
      , "(?i)section\\s*\\d+\\.?\\d*\\s*[-–—]?\\s*(limitations?\\s+on\\s+asset\\s+sales?)[:\\s]*([^.]+(?:\\.[^.]+)\x7b0,10\x7d)"
      , "(?i)(restrictions?\\s+on\\s+(?:sales?|dispositions?)\\s+of\\s+(?:assets?|property))[:\\s]*([^.]+(?:\\.[^.]+)\x7b0,10\x7d)" ]
    keywords := ["asset sale", "disposition", "transfer of assets", "sale of property"]
    section_indicators := ["shall not sell", "may not dispose", "permitted asset sale", "exceptions"] }

/-- The `covenant_patterns` entry for `merger_restrictions`. -/
def cfg_merger_restrictions : CovenantConfig :=
  { ckey := "merger_restrictions", display := "Merger Restrictions"
    patterns :=
      [ "(?i)(merger\\s+(?:restrictions?|covenants?)|consolidation\\s+restrictions?)[:\\s]*([^.]+(?:\\.[^.]+)\x7b0,10\x7d)"
      , "(?i)section\\s*\\d+\\.?\\d*\\s*[-–—]?\\s*(mergers?\\s+and\\s+consolidations?)[:\\s]*([^.]+(?:\\.[^.]+)\x7b0,10\x7d)"
      , "(?i)(limitations?\\s+on\\s+(?:mergers?|consolidations?|amalgamations?))[:\\s]*([^.]+(?:\\.[^.]+)\x7b0,10\x7d)" ]
    keywords := ["merger", "consolidation", "amalgamation", "combination"]
    section_indicators := ["shall not merge", "may not consolidate", "prohibited", "permitted merger"] }

/-- The `covenant_patterns` entry for `investments`. -/
def cfg_investments : CovenantConfig :=
  { ckey := "investments", display := "Investments"
    patterns :=
      [ "(?i)(permitted\\s+investments?|investment\\s+restrictions?)[:\\s]*([^.]+(?:\\.[^.]+)\x7b0,10\x7d)"
      , "(?i)section\\s*\\d+\\.?\\d*\\s*[-–—]?\\s*(limitations?\\s+on\\s+investments?)[:\\s]*([^.]+(?:\\.[^.]+)\x7b0,10\x7d)"
      , "(?i)(restrictions?\\s+on\\s+investments?|investment\\s+covenants?)[:\\s]*([^.]+(?:\\.[^.]+)\x7b0,10\x7d)" ]
    keywords := ["investment", "capital expenditure", "acquisition", "equity investment"]
    section_indicators := ["shall not invest", "permitted investments", "investment basket", "limitations"] }

/-- The `covenant_patterns` entry for `liens`. -/
def cfg_liens : CovenantConfig :=
  { ckey := "liens", display := "Liens"
    patterns :=
      [ "(?i)(liens?\\s+(?:restrictions?|covenants?)|negative\\s+pledge)[:\\s]*([^.]+(?:\\.[^.]+)\x7b0,10\x7d)"
      , "(?i)section\\s*\\d+\\.?\\d*\\s*[-–—]?\\s*(limitations?\\s+on\\s+liens?)[:\\s]*([^.]+(?:\\.[^.]+)\x7b0,10\x7d)"
      , "(?i)(permitted\\s+liens?|security\\s+interests?\\s+restrictions?)[:\\s]*([^.]+(?:\\.[^.]+)\x7b0,10\x7d)" ]
    keywords := ["lien", "security interest", "encumbrance", "pledge", "mortgage"]
    section_indicators := ["shall not create", "permitted liens", "negative pledge", "exceptions"] }

/-- The `covenant_patterns` entry for `transactions_with_affiliates`. -/
def cfg_transactions_with_affiliates : CovenantConfig :=
  { ckey := "transactions_with_affiliates", display := "Transactions With Affiliates"
    patterns :=
      [ "(?i)(transactions?\\s+with\\s+affiliates?|affiliate\\s+transactions?)[:\\s]*([^.]+(?:\\.[^.]+)\x7b0,10\x7d)"
      , "(?i)section\\s*\\d+\\.?\\d*\\s*[-–—]?\\s*(affiliate\\s+transactions?)[:\\s]*([^.]+(?:\\.[^.]+)\x7b0,10\x7d)"
      , "(?i)(related\\s+party\\s+transactions?|intercompany\\s+transactions?)[:\\s]*([^.]+(?:\\.[^.]+)\x7b0,10\x7d)" ]
    keywords := ["affiliate", "related party", "intercompany", "subsidiary transaction"]
    section_indicators := ["arm's length", "fair market value", "prohibited", "permitted"] }

/-- The `covenant_patterns` table (pattern strings transcribed verbatim;
`\x7b`/`\x7d` in this file's string literals denote the literal braces of the
`(?:\.[^.]+)` repetition count). -/
def covenant_patterns : List CovenantConfig :=
  [ cfg_restricted_payments, cfg_change_of_control, cfg_debt_incurrence, cfg_asset_sales
  , cfg_merger_restrictions, cfg_investments, cfg_liens, cfg_transactions_with_affiliates ]
/-- The `section_boundaries` pattern table. -/
def section_boundaries : List String :=
  [ "(?i)(?:section|article|clause)\\s+\\d+(?:\\.\\d+)*"
  , "(?i)(?:section|article|clause)\\s+[A-Z](?:\\.\\d+)*"
  , "\\n\\s*\\d+\\.\\d+\\s+[A-Z]"
  , "\\n\\s*[A-Z]\\.\\s+[A-Z]" ]

/-- Python slice `l[a:b]` (indices clamped). -/
def pySlice (l : List Char) (a b : Nat) : List Char := (l.take b).drop a

/-- Start indices of occurrences of `"\n\n"` in `l`. -/
def paraIdxs (l : List Char) : List Nat :=
  (List.range l.length).filter (fun i => ((l.drop i).take 2) = ['\n', '\n'])

/-- Python `section_text.rfind('\n\n')`: start of the last occurrence, `-1` if none. -/
def pyRfindPara (l : List Char) : Int :=
  match (paraIdxs l).max? with
  | some m => (m : Int)
  | none => -1

/-- The inner boundary loop of `_extract_full_section`: walk the match starts
of one boundary pattern (in `finditer` order), take `initial_end + start` if it
beats the accumulator, and `break`. -/
def boundScanInner (initial_end : Nat) : List Nat → Nat → Nat
  | [], acc => acc
  | p :: rest, acc =>
    if initial_end + p < acc then initial_end + p
    else boundScanInner initial_end rest acc

/-- The boundary search of `_extract_full_section`: fold the four boundary
patterns over `text[initial_end:]`, starting from `len(text)`.  `bm` abstracts
`re.finditer(pattern, suffix)` (the list of match start offsets). -/
def nextSectionPos (bm : String → String → List Nat) (text : String)
    (initial_end : Nat) : Nat :=
  section_boundaries.foldl
    (fun acc pat => boundScanInner initial_end (bm pat ⟨text.data.drop initial_end⟩) acc)
    text.length

/-- `_extract_full_section`: cut at the nearer of the next boundary and
`start_pos + 5000`, then trim back to the last `"\n\n"` when it lies past 70%
of the span (`last_para > len * 0.7`; the float product is modelled by the
exact comparison `10 * last_para > 7 * len` — the two agree away from exact
ties, which the claims do not touch), then `strip()`. -/
def _extract_full_section (bm : String → String → List Nat) (text : String)
    (start_pos initial_end : Nat) : String :=
  let next_section_pos := nextSectionPos bm text initial_end
  let end_pos := min next_section_pos (start_pos + 5000)
  let section_text := pySlice text.data start_pos end_pos
  let last_para := pyRfindPara section_text
  let section_text2 :=
    if 7 * (section_text.length : ℤ) < 10 * last_para then
      section_text.take last_para.toNat
    else section_text
  ⟨pyStrip section_text2⟩

/-- Count of phrases whose lower-case form occurs in the lower-cased text
(presence, not frequency). -/
def countHits (text_lower : List Char) (phrases : List String) : Nat :=
  (phrases.filter (fun k => decide (pyLower k.data <:+: text_lower))).length

/-- `_calculate_confidence`: `0.6 * min(1, hits/max(1,|keywords|)) +
0.4 * min(1, hits/max(1,|indicators|))` over the lower-cased text. -/
def _calculate_confidence (text : String) (keywords section_indicators : List String) : ℚ :=
  let text_lower := pyLower text.data
  let keyword_score := countHits text_lower keywords
  let indicator_score := countHits text_lower section_indicators
  let keyword_confidence : ℚ :=
    min 1 ((keyword_score : ℚ) / ((max 1 keywords.length : ℕ) : ℚ))
  let indicator_confidence : ℚ :=
    min 1 ((indicator_score : ℚ) / ((max 1 section_indicators.length : ℕ) : ℚ))
  keyword_confidence * (6 / 10) + indicator_confidence * (4 / 10)

/-- The inner loop of `_deduplicate_sections` for one incoming `c`: Python's
`for existing in deduplicated` iterates by index; `deduplicated.remove(existing)`
(no `break`) erases the first element equal to `existing` and the iterator then
continues at the next index of the *modified* list; a lower-or-equal-confidence
overlap sets `overlaps = True` and breaks. -/
def dedupScan (c : CovenantSectionB) (L : List CovenantSectionB) (i : Nat) :
    List CovenantSectionB × Bool :=
  if h : i < L.length then
    let e := L.get ⟨i, h⟩
    if e.start_pos ≤ c.start_pos ∧ c.start_pos < e.end_pos then
      if e.confidence < c.confidence then dedupScan c (L.erase e) (i + 1)
      else (L, true)
    else dedupScan c L (i + 1)
  else (L, false)
termination_by L.length - i
decreasing_by
  · have he : L.get ⟨i, h⟩ ∈ L := L.get_mem i h
    have := List.length_erase_of_mem he
    omega
  · omega

/-- One iteration of the outer loop of `_deduplicate_sections`. -/
def dedupInsert (D : List CovenantSectionB) (c : CovenantSectionB) :
    List CovenantSectionB :=
  let r := dedupScan c D 0
  if r.2 then r.1 else r.1 ++ [c]

/-- `_deduplicate_sections`: sort by `start_pos` (Python's stable sort) and
insert greedily with evict-on-higher-confidence. -/
def _deduplicate_sections (sections : List CovenantSectionB) : List CovenantSectionB :=
  if sections.isEmpty then []
  else (sections.mergeSort (fun a b => a.start_pos ≤ b.start_pos)).foldl dedupInsert []

/-- The shared inner body of `extract_sections` and `extract_by_type` for one
config: for each pattern, for each match, extract the span, score it, and keep
it only when `confidence > 0.3`. -/
def sectionsForConfig (bm : String → String → List Nat)
    (fd : String → String → List RMatch) (text : String) (cfg : CovenantConfig) :
    List CovenantSectionB :=
  cfg.patterns.foldl (fun acc pat =>
    acc ++ (fd pat text).filterMap (fun m =>
      let section_content := _extract_full_section bm text m.mstart m.mend
      let confidence := _calculate_confidence section_content cfg.keywords cfg.section_indicators
      if (3 : ℚ) / 10 < confidence then
        some { section_type := cfg.ckey
               title := m.group1.getD cfg.display
               content := section_content
               start_pos := m.mstart
               end_pos := m.mstart + section_content.length
               confidence := confidence }
      else none)) []

/-- `RegexCovenantExtractor.extract_sections`. -/
def extract_sections (bm : String → String → List Nat)
    (fd : String → String → List RMatch) (text : String) : List CovenantSectionB :=
  _deduplicate_sections
    (covenant_patterns.foldl (fun acc cfg => acc ++ sectionsForConfig bm fd text cfg) [])

/-- `RegexCovenantExtractor.extract_by_type`; the unknown-type `ValueError` is
modelled as `none`. -/
def extract_by_type (bm : String → String → List Nat)
    (fd : String → String → List RMatch) (text : String) (covenant_type : String) :
    Option (List CovenantSectionB) :=
  match covenant_patterns.find? (fun cfg => cfg.ckey == covenant_type) with
  | none => none
  | some cfg => some (_deduplicate_sections (sectionsForConfig bm fd text cfg))

/-! ## LLM bridge (`llm_extract_covenants`, `src/covenant_extractor/extractor.py`) -/

/-- One per-target result of the LLM bridge. -/
structure LLMEntry where
  title : String
  excerpt : String
  rationale : String
deriving DecidableEq, Repr

/-- Python truthiness of an optional string (`None` and `""` are falsy). -/
def pyTruthyStr : Option String → Bool
  | none => false
  | some s => !s.isEmpty

/-- `llm_extract_covenants`.  `getenv_key` models `os.getenv("OPENAI_API_KEY")`;
the whole network branch (client construction, chat completion at temperature 0
over the text truncated to 100000 characters, JSON parse) is abstracted as the
oracle `network`, whose `none` result models an import failure, exception, or
JSON-parse failure.  `api_key = api_key or os.getenv(...)`, then
`if not api_key: return {}` is the Python truthiness guard. -/
def llm_extract_covenants (getenv_key : Option String)
    (network : String → List String → Option (List (String × LLMEntry)))
    (text : String) (targets : List String) (api_key : Option String) :
    List (String × LLMEntry) :=
  let key := if pyTruthyStr api_key then api_key else getenv_key
  if !pyTruthyStr key then []
  else
    let canonical_targets := targets.map normalize_target
    match network ⟨text.data.take 100000⟩ canonical_targets with
    | none => []
    | some data =>
      canonical_targets.map (fun t => (t, (data.lookup t).getD ⟨"", "", ""⟩))

/-! ## Shared lemmas -/

lemma pyStrip_sublist (l : List Char) : (pyStrip l).Sublist l :=
  (List.rdropWhile_prefix _ _).sublist.trans (List.dropWhile_sublist _)

lemma pyStrip_length_le (l : List Char) : (pyStrip l).length ≤ l.length :=
  (pyStrip_sublist l).length_le

lemma string_mk_length (l : List Char) : (String.mk l).length = l.length := rfl

lemma pySlice_length_le (l : List Char) (a b : Nat) : (pySlice l a b).length ≤ b - a := by
  unfold pySlice
  simp only [List.length_drop, List.length_take]
  omega

lemma mem_foldl_append {α β : Type} (f : α → List β) (l : List α) :
    ∀ (init : List β) (x : β),
      (x ∈ l.foldl (fun acc s => acc ++ f s) init ↔ x ∈ init ∨ ∃ s ∈ l, x ∈ f s) := by
  induction l with
  | nil => intro init x; simp
  | cons a l ih =>
    intro init x
    rw [List.foldl_cons, ih]
    simp only [List.mem_append, List.mem_cons, or_assoc]
    constructor
    · rintro (h | h | ⟨s, hs, hx⟩)
      · exact Or.inl h
      · exact Or.inr ⟨a, Or.inl rfl, h⟩
      · exact Or.inr ⟨s, Or.inr hs, hx⟩
    · rintro (h | ⟨s, hs | hs, hx⟩)
      · exact Or.inl h
      · exact Or.inr (Or.inl (hs ▸ hx))
      · exact Or.inr (Or.inr ⟨s, hs, hx⟩)

lemma dedupScan_fst_subset (c : CovenantSectionB) (L : List CovenantSectionB) (i : Nat) :
    ∀ x ∈ (dedupScan c L i).1, x ∈ L := by
  induction L, i using dedupScan.induct c with
  | case1 L i h e hov hconf ih =>
    intro x hx
    rw [dedupScan] at hx
    simp only [h, dif_pos, if_pos hov, if_pos hconf] at hx
    exact (L.erase_sublist e).mem (ih x hx)
  | case2 L i h e hov hconf =>
    intro x hx
    rw [dedupScan] at hx
    simp only [h, dif_pos, if_pos hov, if_neg hconf] at hx
    exact hx
  | case3 L i h e hov ih =>
    intro x hx
    rw [dedupScan] at hx
    simp only [h, dif_pos, if_neg hov] at hx
    exact ih x hx
  | case4 L i h =>
    intro x hx
    rw [dedupScan] at hx
    simp only [dif_neg h] at hx
    exact hx

lemma dedupInsert_mem {D : List CovenantSectionB} {c x : CovenantSectionB}
    (hx : x ∈ dedupInsert D c) : x ∈ D ∨ x = c := by
  unfold dedupInsert at hx
  dsimp only at hx
  split at hx
  · exact Or.inl (dedupScan_fst_subset c D 0 x hx)
  · rcases List.mem_append.mp hx with h | h
    · exact Or.inl (dedupScan_fst_subset c D 0 x h)
    · exact Or.inr (List.mem_singleton.mp h)

lemma foldl_dedupInsert_mem :
    ∀ (todo D : List CovenantSectionB) (x : CovenantSectionB),
      x ∈ todo.foldl dedupInsert D → x ∈ D ∨ x ∈ todo := by
  intro todo
  induction todo with
  | nil => intro D x hx; exact Or.inl hx
  | cons c rest ih =>
    intro D x hx
    rw [List.foldl_cons] at hx
    rcases ih _ x hx with h | h
    · rcases dedupInsert_mem h with h2 | h2
      · exact Or.inl h2
      · exact Or.inr (h2 ▸ List.mem_cons_self c rest)
    · exact Or.inr (List.mem_cons_of_mem _ h)

lemma dedup_subset {l : List CovenantSectionB} {x : CovenantSectionB}
    (hx : x ∈ _deduplicate_sections l) : x ∈ l := by
  unfold _deduplicate_sections at hx
  split at hx
  · simp at hx
  · rcases foldl_dedupInsert_mem _ _ _ hx with h | h
    · simp at h
    · exact (List.mergeSort_perm l _).mem_iff.mp h

lemma ratio_bounds (a b : ℕ) : 0 ≤ min 1 ((a : ℚ) / ((max 1 b : ℕ) : ℚ)) ∧
    min 1 ((a : ℚ) / ((max 1 b : ℕ) : ℚ)) ≤ 1 := by
  constructor
  · apply le_min
    · norm_num
    · positivity
  · exact min_le_left _ _

lemma calc_confidence_bounds (t : String) (kw ind : List String) :
    0 ≤ _calculate_confidence t kw ind ∧ _calculate_confidence t kw ind ≤ 1 := by
  unfold _calculate_confidence
  have h1 := ratio_bounds (countHits (pyLower t.data) kw) kw.length
  have h2 := ratio_bounds (countHits (pyLower t.data) ind) ind.length
  constructor
  · nlinarith [h1.1, h2.1]
  · nlinarith [h1.2, h2.2, h1.1, h2.1]

lemma extract_full_section_length_le (bm : String → String → List Nat) (text : String)
    (a b : Nat) : (_extract_full_section bm text a b).length ≤ 5000 := by
  unfold _extract_full_section
  have hslice := pySlice_length_le text.data a (min (nextSectionPos bm text b) (a + 5000))
  rw [string_mk_length]
  refine le_trans (pyStrip_length_le _) ?_
  split
  · refine le_trans (List.take_sublist _ _).length_le ?_
    omega
  · omega

lemma sectionsForConfig_mem {bm : String → String → List Nat}
    {fd : String → String → List RMatch} {text : String} {cfg : CovenantConfig}
    {x : CovenantSectionB} (hx : x ∈ sectionsForConfig bm fd text cfg) :
    (3 : ℚ) / 10 < x.confidence ∧ x.end_pos = x.start_pos + x.content.length ∧
      0 ≤ x.confidence ∧ x.confidence ≤ 1 ∧ x.content.length ≤ 5000 := by
  unfold sectionsForConfig at hx
  rcases (mem_foldl_append _ cfg.patterns [] x).mp hx with h | ⟨pat, _, h⟩
  · simp at h
  · rcases List.mem_filterMap.mp h with ⟨m, _, hsome⟩
    dsimp only at hsome
    split at hsome
    · rcases Option.some.injEq _ _ ▸ hsome with rfl
      rename_i hconf
      refine ⟨hconf, rfl, ?_, ?_, ?_⟩
      · exact (calc_confidence_bounds _ _ _).1
      · exact (calc_confidence_bounds _ _ _).2
      · exact extract_full_section_length_le bm text _ _
    · exact absurd hsome (by simp)

/-! ## C8: LLM bridge with no credential -/

/-- C8: for every input text and target list, calling the LLM bridge with no
`api_key` argument and no environment key returns the empty mapping regardless
of the network oracle (so the network branch is never reached), and, being a
total function, never raises. -/
theorem C8_no_credential_returns_empty :
    ∀ (network : String → List String → Option (List (String × LLMEntry)))
      (text : String) (targets : List String),
      llm_extract_covenants none network text targets none = [] := by
  intro network text targets
  rfl

/-! ## C4: confidence formula -/

/-- The scorer exactly as the spec words it: `0.6 * min(1, keyword_hits /
|keyword_set|) + 0.4 * min(1, indicator_hits / |indicator_set|)`, hits counting
presence (not frequency) of each phrase in the lower-cased text, with the
division-by-zero guard giving score `0` for an empty set. -/
def spec_confidence (text : String) (keywords indicators : List String) : ℚ :=
  let kh : ℚ :=
    ((keywords.filter (fun k => decide (pyLower k.data <:+: pyLower text.data))).length : ℚ)
  let ih : ℚ :=
    ((indicators.filter (fun k => decide (pyLower k.data <:+: pyLower text.data))).length : ℚ)
  6 / 10 * (if keywords.length = 0 then 0 else min 1 (kh / (keywords.length : ℚ))) +
    4 / 10 * (if indicators.length = 0 then 0 else min 1 (ih / (indicators.length : ℚ)))

lemma guard_ratio_eq (a b : ℕ) (h : b = 0 → a = 0) :
    min 1 ((a : ℚ) / ((max 1 b : ℕ) : ℚ)) =
      if b = 0 then 0 else min 1 ((a : ℚ) / (b : ℚ)) := by
  rcases Nat.eq_zero_or_pos b with hb | hb
  · subst hb
    simp [h rfl]
  · rw [Nat.max_eq_right hb, if_neg (Nat.pos_iff_ne_zero.mp hb)]

/-- C4: for every section text, keyword set and indicator set (empty sets
included), the computed confidence equals the spec formula
`0.6 * min(1, keyword_hits/|keywords|) + 0.4 * min(1, indicator_hits/|indicators|)`
(division by zero guarded to a zero score), and it always lies in `[0, 1]`. -/
theorem C4_confidence_formula (text : String) (keywords indicators : List String) :
    _calculate_confidence text keywords indicators = spec_confidence text keywords indicators ∧
    0 ≤ _calculate_confidence text keywords indicators ∧
    _calculate_confidence text keywords indicators ≤ 1 := by
  refine ⟨?_, (calc_confidence_bounds text keywords indicators).1,
    (calc_confidence_bounds text keywords indicators).2⟩
  unfold _calculate_confidence spec_confidence countHits
  dsimp only
  rw [guard_ratio_eq _ _ (fun h => by
        have := List.length_filter_le
          (fun k => decide (pyLower k.data <:+: pyLower text.data)) keywords
        omega),
      guard_ratio_eq _ _ (fun h => by
        have := List.length_filter_le
          (fun k => decide (pyLower k.data <:+: pyLower text.data)) indicators
        omega)]
  ring

/-! ## C6: the 0.3 confidence floor -/

/-- C6: every section in the lists returned by `extract_sections` and
`extract_by_type` has confidence at least `0.3` (the code's filter is in fact
strict: `confidence > 0.3`). -/
theorem C6_confidence_floor :
    (∀ bm fd text, ∀ s ∈ extract_sections bm fd text, (3 : ℚ) / 10 ≤ s.confidence) ∧
    (∀ bm fd text ty l, extract_by_type bm fd text ty = some l →
      ∀ s ∈ l, (3 : ℚ) / 10 ≤ s.confidence) := by
  constructor
  · intro bm fd text s hs
    have hmem := @dedup_subset (covenant_patterns.foldl
      (fun acc cfg => acc ++ sectionsForConfig bm fd text cfg) []) s (by
        unfold extract_sections at hs
        exact hs)
    rcases (mem_foldl_append _ covenant_patterns []  s).mp hmem with h | ⟨cfg, _, h⟩
    · simp at h
    · exact le_of_lt (sectionsForConfig_mem h).1
  · intro bm fd text ty l hl s hs
    unfold extract_by_type at hl
    split at hl
    · exact absurd hl (by simp)
    · rcases Option.some.injEq _ _ ▸ hl with rfl
      exact le_of_lt (sectionsForConfig_mem (dedup_subset hs)).1

/-! ## C7: positional and confidence invariants of produced sections -/

lemma find_section_bounds_fst (lines : List String) (i : Nat) (hs : List Nat)
    (maxsl : Nat) : (_find_section_bounds lines i hs maxsl).1 = i := by
  unfold _find_section_bounds
  dsimp only
  split <;> rfl

lemma lineSection_some {lines : List String} {hs : List Nat} {maxsl : Nat}
    {k : String} {p : String → Bool} {il : Nat × String} {s : CovenantSectionA}
    (h : lineSection lines hs maxsl k p il = some s) :
    s.start_line = il.1 + 1 ∧
      s.end_line = (_find_section_bounds lines il.1 hs maxsl).2 + 1 := by
  unfold lineSection at h
  split at h
  · exact absurd h (by simp)
  · split at h
    · rcases Option.some.injEq _ _ ▸ h with rfl
      exact ⟨by dsimp only; rw [find_section_bounds_fst], rfl⟩
    · exact absurd h (by simp)

lemma find_section_bounds_spec (lines : List String) (i : Nat) (hs : List Nat)
    (maxsl : Nat) (hi : i < lines.length) :
    (_find_section_bounds lines i hs maxsl).1 = i ∧
    i ≤ (_find_section_bounds lines i hs maxsl).2 := by
  unfold _find_section_bounds
  dsimp only
  split
  · rename_i nh heq
    have hnh : i < nh := by
      have := List.find?_some heq
      simpa using this
    refine ⟨rfl, ?_⟩
    simp only
    omega
  · refine ⟨rfl, ?_⟩
    simp only
    omega

/-- C7: every `CovenantSection` produced by either extractor has its end
position at least its start position (`end_line ≥ start_line` for Design A,
`end_pos ≥ start_pos` for Design B), and in the scored design the confidence
lies in `[0, 1]`. -/
theorem C7_section_invariants :
    (∀ compiled text maxsl, ∀ kl ∈ extract_covenants_from_text compiled text maxsl,
      ∀ s ∈ kl.2, s.start_line ≤ s.end_line) ∧
    (∀ bm fd text, ∀ s ∈ extract_sections bm fd text,
      s.start_pos ≤ s.end_pos ∧ 0 ≤ s.confidence ∧ s.confidence ≤ 1) := by
  constructor
  · intro compiled text maxsl kl hkl s hs
    unfold extract_covenants_from_text at hkl
    rcases List.mem_map.mp hkl with ⟨kp, _, hkl2⟩
    rw [← hkl2] at hs
    rcases List.mem_filterMap.mp hs with ⟨il, hil, hsome⟩
    have hi : il.1 < (_split_lines text).length := by
      have h2 := List.mem_enum_iff_getElem?.mp hil
      exact (List.getElem?_eq_some_iff.mp h2).1
    have hb := find_section_bounds_spec (_split_lines text) il.1
      (_find_heading_indices (_split_lines text)) maxsl hi
    have hse := lineSection_some hsome
    omega
  · intro bm fd text s hs
    have hmem := @dedup_subset (covenant_patterns.foldl
      (fun acc cfg => acc ++ sectionsForConfig bm fd text cfg) []) s (by
        unfold extract_sections at hs
        exact hs)
    rcases (mem_foldl_append _ covenant_patterns [] s).mp hmem with h | ⟨cfg, _, h⟩
    · simp at h
    · have hp := sectionsForConfig_mem h
      exact ⟨by omega, hp.2.2.1, hp.2.2.2.1⟩

/-! ## Concrete witness inputs -/

/-- Boundary oracle finding no boundary matches. -/
def bmW : String → String → List Nat := fun _ _ => []

/-- Match oracle: one match for the first change-of-control pattern. -/
def fdW : String → String → List RMatch := fun pat _ =>
  if pat = "(?i)(change\\s+(?:of|in)\\s+control)[:\\s]*([^.]+(?:\\.[^.]+)\x7b0,10\x7d)"
  then [⟨0, 17, none⟩] else []

def textW : String := "change of control means acquisition change in control"

/-- The section `extract_sections bmW fdW textW` produces. -/
def sW : CovenantSectionB :=
  { section_type := "change_of_control", title := "Change Of Control"
    content := textW, start_pos := 0, end_pos := 53, confidence := 53 / 100 }

lemma dedup_singleton (x : CovenantSectionB) : _deduplicate_sections [x] = [x] := by
  unfold _deduplicate_sections
  rw [if_neg (by simp)]
  have h1 : [x].mergeSort (fun a b => a.start_pos ≤ b.start_pos) = [x] := by
    simp [List.mergeSort]
  rw [h1]
  show dedupInsert [] x = [x]
  unfold dedupInsert
  rw [dedupScan]
  simp

lemma hconfW : _calculate_confidence textW
    ["change of control", "change in control", "control change", "acquisition"]
    ["means", "shall mean", "defined as", "constitutes", "triggers"] = 53 / 100 := by
  have h : countHits (pyLower textW.data)
      ["change of control", "change in control", "control change", "acquisition"] = 3 := by decide
  have h2 : countHits (pyLower textW.data)
      ["means", "shall mean", "defined as", "constitutes", "triggers"] = 1 := by decide
  unfold _calculate_confidence
  dsimp only
  rw [h, h2]
  norm_num

lemma extract_sections_W : extract_sections bmW fdW textW = [sW] := by
  have hc : _extract_full_section bmW textW 0 17 = textW := by decide
  unfold extract_sections covenant_patterns sectionsForConfig cfg_restricted_payments
    cfg_change_of_control cfg_debt_incurrence cfg_asset_sales cfg_merger_restrictions
    cfg_investments cfg_liens cfg_transactions_with_affiliates
  norm_num [hc, hconfW, fdW, List.filterMap, dedup_singleton, sW,
    show textW.length = 53 from rfl]

lemma extract_by_type_W : extract_by_type bmW fdW textW "change_of_control" = some [sW] := by
  have hc : _extract_full_section bmW textW 0 17 = textW := by decide
  have hfind : covenant_patterns.find? (fun cfg => cfg.ckey == "change_of_control") =
      some cfg_change_of_control := by rfl
  unfold extract_by_type
  rw [hfind]
  unfold sectionsForConfig cfg_change_of_control
  norm_num [hc, hconfW, fdW, List.filterMap, dedup_singleton, sW,
    show textW.length = 53 from rfl]

/-- Design A witness document and its extracted section. -/
def textA : String := "match me here\nxx\nyy\nzz\nww"

def sA : CovenantSectionA :=
  { target := "t", title := "match me here", start_line := 1, end_line := 3
    text := "match me here\nxx\nyy" }

unseal eatDotGroups pySplit in
lemma extractA_W :
    extract_covenants_from_text [("t", fun s => s == "match me here")] textA 2 =
      [("t", [sA])] := rfl

theorem C6_confidence_floor_witness :
    (3 : ℚ) / 10 ≤ sW.confidence ∧ (3 : ℚ) / 10 ≤ sW.confidence :=
  ⟨C6_confidence_floor.1 bmW fdW textW sW (by rw [extract_sections_W]; simp),
   C6_confidence_floor.2 bmW fdW textW "change_of_control" [sW] extract_by_type_W sW
     (by simp)⟩

theorem C7_section_invariants_witness :
    sA.start_line ≤ sA.end_line ∧
      (sW.start_pos ≤ sW.end_pos ∧ 0 ≤ sW.confidence ∧ sW.confidence ≤ 1) :=
  ⟨C7_section_invariants.1 [("t", fun s => s == "match me here")] textA 2 ("t", [sA])
      (by rw [extractA_W]; simp) sA (by simp),
   C7_section_invariants.2 bmW fdW textW sW (by rw [extract_sections_W]; simp)⟩

/-! ## C10: per-target lists ordered by strictly increasing start line -/

lemma pairwise_enum_fst (lines : List String) :
    lines.enum.Pairwise (fun a b => a.1 < b.1) := by
  rw [List.pairwise_iff_getElem]
  intro i j hi hj hij
  rw [List.getElem_enum, List.getElem_enum]
  exact hij

/-- C10: in the line-window extractor, each per-target list in the returned
mapping is ordered by strictly increasing `start_line`. -/
theorem C10_sections_ordered :
    ∀ compiled text maxsl, ∀ kl ∈ extract_covenants_from_text compiled text maxsl,
      kl.2.Pairwise (fun a b => a.start_line < b.start_line) := by
  intro compiled text maxsl kl hkl
  unfold extract_covenants_from_text at hkl
  rcases List.mem_map.mp hkl with ⟨kp, _, hkl2⟩
  rw [← hkl2]
  dsimp only
  rw [List.pairwise_filterMap]
  refine (pairwise_enum_fst (_split_lines text)).imp ?_
  intro a b hab s1 hs1 s2 hs2
  rw [Option.mem_def] at hs1 hs2
  rw [(lineSection_some hs1).1, (lineSection_some hs2).1]
  omega

theorem C10_sections_ordered_witness :
    (("t", [sA]) : String × List CovenantSectionA).2.Pairwise
      (fun a b => a.start_line < b.start_line) :=
  C10_sections_ordered [("t", fun s => s == "match me here")] textA 2 ("t", [sA])
    (by rw [extractA_W]; simp)

/-! ## C5: the 5000-character cap and the paragraph-boundary trim -/

lemma pyRfindPara_eq_max (l : List Char) (p : Nat) (hp : p ∈ paraIdxs l)
    (hmax : ∀ q ∈ paraIdxs l, q ≤ p) : pyRfindPara l = (p : Int) := by
  unfold pyRfindPara
  have h : (paraIdxs l).max? = some p := by
    rw [List.max?_eq_some_iff Nat.le_refl max_choice (fun _ _ _ => Nat.max_le)]
    exact ⟨hp, hmax⟩
  rw [h]

/-- C5: every section returned by the span-based extractor has content at most
5000 characters long, and whenever the last blank-line (`"\n\n"`) boundary of
the captured span falls past 70% of the span, the extracted content is the
span trimmed back to end at that boundary (then stripped). -/
theorem C5_length_cap_and_paragraph_trim :
    (∀ bm fd text, ∀ s ∈ extract_sections bm fd text, s.content.length ≤ 5000) ∧
    (∀ (bm : String → String → List Nat) (text : String) (sp ie p : Nat),
      p ∈ paraIdxs (pySlice text.data sp (min (nextSectionPos bm text ie) (sp + 5000))) →
      (∀ q ∈ paraIdxs (pySlice text.data sp (min (nextSectionPos bm text ie) (sp + 5000))),
        q ≤ p) →
      7 * (pySlice text.data sp (min (nextSectionPos bm text ie) (sp + 5000))).length
        < 10 * p →
      _extract_full_section bm text sp ie =
        ⟨pyStrip ((pySlice text.data sp
          (min (nextSectionPos bm text ie) (sp + 5000))).take p)⟩) := by
  constructor
  · intro bm fd text s hs
    have hmem := @dedup_subset (covenant_patterns.foldl
      (fun acc cfg => acc ++ sectionsForConfig bm fd text cfg) []) s (by
        unfold extract_sections at hs
        exact hs)
    rcases (mem_foldl_append _ covenant_patterns [] s).mp hmem with h | ⟨cfg, _, h⟩
    · simp at h
    · exact (sectionsForConfig_mem h).2.2.2.2
  · intro bm text sp ie p hp hmax hcut
    unfold _extract_full_section
    dsimp only
    rw [pyRfindPara_eq_max _ p hp hmax]
    rw [if_pos (by exact_mod_cast hcut)]
    rw [Int.toNat_natCast]

theorem C5_length_cap_and_paragraph_trim_witness :
    sW.content.length ≤ 5000 ∧
      _extract_full_section bmW "aaaaaaaaaaaa\n\nx" 0 0 =
        ⟨pyStrip ((pySlice ("aaaaaaaaaaaa\n\nx" : String).data 0
          (min (nextSectionPos bmW "aaaaaaaaaaaa\n\nx" 0) (0 + 5000))).take 12)⟩ :=
  ⟨C5_length_cap_and_paragraph_trim.1 bmW fdW textW sW (by rw [extract_sections_W]; simp),
   C5_length_cap_and_paragraph_trim.2 bmW "aaaaaaaaaaaa\n\nx" 0 0 12 (by decide) (by decide)
     (by decide)⟩


/-! ## C3: the single-match window cap in the line-window extractor -/

lemma filterMap_eq_singleton {α β : Type} (g : α → Option β) (pre post : List α)
    (x : α) (v : β) (hx : g x = some v) (hpre : ∀ y ∈ pre, g y = none)
    (hpost : ∀ y ∈ post, g y = none) :
    (pre ++ x :: post).filterMap g = [v] := by
  rw [List.filterMap_append, List.filterMap_eq_nil_iff.mpr hpre]
  simp [List.filterMap_cons, hx, List.filterMap_eq_nil_iff.mpr hpost]

lemma find_heading_indices_nil (lines : List String)
    (hno : ∀ l ∈ lines, is_heading_line l = false) :
    _find_heading_indices lines = [] := by
  unfold _find_heading_indices
  rw [List.filter_eq_nil_iff.mpr, List.map_nil]
  intro p hp
  have hmem := List.mem_enum_iff_getElem?.mp hp
  have : p.2 ∈ lines := List.getElem?_mem hmem
  simp [hno _ this]

lemma lineSection_none_of_ne (lines : List String) (hs : List Nat) (maxsl : Nat)
    (k : String) (p : String → Bool) (i : Nat) (y : Nat × String)
    (hy : y ∈ lines.enum)
    (huniq : ∀ j lj, lines[j]? = some lj →
      (pyStrip lj.data).isEmpty = false ∧ p lj = true → j = i)
    (hne : y.1 ≠ i) : lineSection lines hs maxsl k p y = none := by
  have hy2 := List.mem_enum_iff_getElem?.mp hy
  unfold lineSection
  split
  · rfl
  · rename_i hblank
    rcases hpv : p y.2 with _ | _
    · rw [if_neg (by simp [hpv])]
    · exact absurd (huniq y.1 y.2 hy2 ⟨by simpa using hblank, hpv⟩) hne

/-- C3 amended: in the line-window extractor, a document with zero heading
lines and exactly one non-blank line matching the target pattern yields
exactly one section for that target, and its (1-based) end line is capped at
`start_line + max_section_lines` — an inclusive window of
`max_section_lines + 1` lines — or at the text's last line if the text is
shorter (the claim's cap of `start + max_section_lines - 1` is off by one
against the code). -/
theorem C3_single_match_window (p : String → Bool) (k text : String)
    (maxsl i : Nat) (line : String)
    (hno : ∀ l ∈ _split_lines text, is_heading_line l = false)
    (hline : (_split_lines text)[i]? = some line)
    (hm : (pyStrip line.data).isEmpty = false ∧ p line = true)
    (huniq : ∀ j lj, (_split_lines text)[j]? = some lj →
      (pyStrip lj.data).isEmpty = false ∧ p lj = true → j = i) :
    ∃ s : CovenantSectionA,
      extract_covenants_from_text [(k, p)] text maxsl = [(k, [s])] ∧
      s.start_line = i + 1 ∧
      s.end_line = min (_split_lines text).length (i + 1 + maxsl) := by
  have hi : i < (_split_lines text).length := (List.getElem?_eq_some_iff.mp hline).1
  have hheads := find_heading_indices_nil (_split_lines text) hno
  set lines := _split_lines text with hlines
  have hilen : i < lines.enum.length := by rw [List.enum_length]; exact hi
  have hbounds : _find_section_bounds lines i [] maxsl =
      (i, min (lines.length - 1) (i + maxsl)) := by
    unfold _find_section_bounds
    rfl
  refine ⟨{ target := k, title := ⟨pyStrip line.data⟩
            start_line := i + 1
            end_line := min (lines.length - 1) (i + maxsl) + 1
            text := ⟨pyStrip (String.intercalate "\n"
              ((lines.drop i).take (min (lines.length - 1) (i + maxsl) + 1 - i))).data⟩ },
    ?_, rfl, by dsimp only; omega⟩
  unfold extract_covenants_from_text
  dsimp only
  rw [← hlines, hheads, List.map_cons, List.map_nil]
  dsimp only
  have hdecomp : lines.enum = lines.enum.take i ++
      (i, line) :: lines.enum.drop (i + 1) := by
    have h3 : lines[i] = line := (List.getElem?_eq_some_iff.mp hline).2
    have h1 : lines.enum.drop i = (i, line) :: lines.enum.drop (i + 1) := by
      rw [List.drop_eq_getElem_cons hilen, List.getElem_enum _ _ hilen, h3]
    calc lines.enum = lines.enum.take i ++ lines.enum.drop i :=
          (List.take_append_drop i lines.enum).symm
      _ = lines.enum.take i ++ (i, line) :: lines.enum.drop (i + 1) := by rw [h1]
  rw [hdecomp]
  refine congrArg (fun z => [(k, z)]) (filterMap_eq_singleton _ _ _ _ _ ?_ ?_ ?_)
  · unfold lineSection
    rw [if_neg (by simp [hm.1]), if_pos hm.2, hbounds]
  · intro y hy
    have hymem : y ∈ lines.enum := (List.take_sublist _ _).mem hy
    have hylt : y.1 < i := by
      rcases List.mem_take_iff_getElem.mp hy with ⟨j, hj, hjy⟩
      have hjl : j < lines.enum.length := by omega
      have hg : getElem lines.enum j hjl = (j, getElem lines j (by
          rw [List.enum_length] at hjl; exact hjl)) := List.getElem_enum _ _ hjl
      have : y.1 = j := by rw [← hjy, hg]
      omega
    exact lineSection_none_of_ne lines [] maxsl k p i y hymem huniq (by omega)
  · intro y hy
    have hymem : y ∈ lines.enum := (List.drop_sublist _ _).mem hy
    have hygt : i < y.1 := by
      rcases List.mem_drop_iff_getElem.mp hy with ⟨j, hj, hjy⟩
      have hjl : i + 1 + j < lines.enum.length := by omega
      have hg : getElem lines.enum (i + 1 + j) hjl = (i + 1 + j, getElem lines (i + 1 + j) (by
          rw [List.enum_length] at hjl; exact hjl)) := List.getElem_enum _ _ hjl
      have : y.1 = i + 1 + j := by rw [← hjy, hg]
      omega
    exact lineSection_none_of_ne lines [] maxsl k p i y hymem huniq (by omega)

unseal eatDotGroups pySplit in
/-- C3 counterexample: a 5-line document with no heading lines and exactly one
line (index 0) matching the target pattern, run with `max_section_lines = 2`.
The claim caps the end at `start + max_section_lines - 1` (here line 2 in
1-based numbering), but the code returns `end_line = 3` — the window is
`start + max_section_lines` inclusive. -/
theorem C3_cap_counterexample :
    (∀ l ∈ _split_lines textA, is_heading_line l = false) ∧
    ((_split_lines textA).enum.filter
      (fun il => !(pyStrip il.2.data).isEmpty && (il.2 == "match me here"))).map
        Prod.fst = [0] ∧
    extract_covenants_from_text [("t", fun s => s == "match me here")] textA 2 =
      [("t", [sA])] ∧
    (_split_lines textA).length = 5 ∧
    sA.start_line = 1 ∧ sA.end_line = 3 ∧ sA.end_line ≠ sA.start_line + 2 - 1 :=
  ⟨by decide, by decide, extractA_W, by decide, rfl, rfl, by decide⟩

unseal eatDotGroups pySplit in
theorem C3_single_match_window_witness :
    ∃ s : CovenantSectionA,
      extract_covenants_from_text [("t", fun l => l == "match me here")] textA 2 =
        [("t", [s])] ∧
      s.start_line = 0 + 1 ∧
      s.end_line = min (_split_lines textA).length (0 + 1 + 2) :=
  C3_single_match_window (fun l => l == "match me here") "t" textA 2 0 "match me here"
    (by decide) (by decide) (by decide)
    (fun j lj hj hm => by
      have hb : ∀ il ∈ (_split_lines textA).enum,
          ((!(pyStrip il.2.data).isEmpty) && (il.2 == "match me here")) = true →
            il.1 = 0 := by decide
      exact hb (j, lj) (List.mem_enum_iff_getElem?.mpr hj) (by simp [hm.1, hm.2]))

/-! ## C9: `normalize_target` is idempotent -/

lemma char_eq_iff_toNat {c d : Char} : c = d ↔ c.toNat = d.toNat := by
  constructor
  · intro h; rw [h]
  · intro h
    exact Char.ext (UInt32.ext h)

lemma toNat_ofNat_lt (n : Nat) (h : n < 55296) : (Char.ofNat n).toNat = n := by
  unfold Char.ofNat
  split
  · rfl
  · rename_i h2
    have h3 : 55296 ≤ n ∧ (57343 < n → 1114112 ≤ n) := by
      simpa [Nat.isValidChar, UInt32.isValidChar] using h2
    omega

lemma isUpper_toNat {c : Char} (h : c.isUpper = true) : 65 ≤ c.toNat ∧ c.toNat ≤ 90 := by
  simpa [Char.isUpper] using h

lemma not_isUpper_of_toNat {c : Char} (h : c.toNat < 65 ∨ 90 < c.toNat) :
    c.isUpper = false := by
  cases hu : c.isUpper
  · rfl
  · exact absurd (isUpper_toNat hu) (by omega)

lemma toNat_lowerChar (c : Char) :
    (lowerChar c).toNat = if c.isUpper then c.toNat + 32 else c.toNat := by
  unfold lowerChar
  split
  · rename_i h
    have := isUpper_toNat h
    exact toNat_ofNat_lt _ (by omega)
  · rfl

lemma isPySpace_iff_toNat (c : Char) : isPySpace c = true ↔
    (c.toNat = 32 ∨ c.toNat = 9 ∨ c.toNat = 10 ∨ c.toNat = 13 ∨
      c.toNat = 11 ∨ c.toNat = 12) := by
  unfold isPySpace
  simp only [Bool.or_eq_true, decide_eq_true_eq, char_eq_iff_toNat]
  rw [show (' ' : Char).toNat = 32 from rfl, show ('\t' : Char).toNat = 9 from rfl,
    show ('\n' : Char).toNat = 10 from rfl, show ('\x0d' : Char).toNat = 13 from rfl,
    show ('\x0b' : Char).toNat = 11 from rfl, show ('\x0c' : Char).toNat = 12 from rfl]
  tauto

lemma isPySpace_lowerChar (c : Char) : isPySpace (lowerChar c) = isPySpace c := by
  cases hu : c.isUpper
  · unfold lowerChar
    rw [hu]
    simp
  · have hb := isUpper_toNat hu
    have h1 : isPySpace (lowerChar c) = false := by
      cases hsp : isPySpace (lowerChar c)
      · rfl
      · have := (isPySpace_iff_toNat _).mp hsp
        rw [toNat_lowerChar, hu] at this
        simp at this
        omega
    have h2 : isPySpace c = false := by
      cases hsp : isPySpace c
      · rfl
      · have := (isPySpace_iff_toNat _).mp hsp
        omega
    rw [h1, h2]

lemma lowerChar_idem (c : Char) : lowerChar (lowerChar c) = lowerChar c := by
  cases hu : c.isUpper
  · have : lowerChar c = c := by unfold lowerChar; rw [hu]; simp
    rw [this, this]
  · have hb := isUpper_toNat hu
    have hnu : (lowerChar c).isUpper = false := by
      apply not_isUpper_of_toNat
      rw [toNat_lowerChar, hu]
      simp only [if_true]
      omega
    have h2 : lowerChar (lowerChar c) =
        if (lowerChar c).isUpper then Char.ofNat ((lowerChar c).toNat + 32)
        else lowerChar c := rfl
    rw [h2, hnu]
    simp

lemma replaceHyphen_eq (l : List Char) : replaceHyphen l = l := by
  unfold replaceHyphen
  have h : (fun c => if c = '-' then '-' else c) = fun c => id c := by
    funext c
    split
    · rename_i h2; rw [h2]; rfl
    · rfl
  rw [h, List.map_id]

/-- A list is in collapsed-whitespace form: every whitespace character is a
plain space and no two adjacent characters are both whitespace. -/
def GoodWs (l : List Char) : Prop :=
  (∀ c ∈ l, isPySpace c = true → c = ' ') ∧
    l.Chain' (fun a b => ¬(isPySpace a = true ∧ isPySpace b = true))

lemma dropWhile_head_not (p : Char → Bool) :
    ∀ (l : List Char) (c : Char), (l.dropWhile p).head? = some c → p c = false := by
  intro l
  induction l with
  | nil => intro c h; simp [List.dropWhile] at h
  | cons a rest ih =>
    intro c h
    rw [List.dropWhile_cons] at h
    split at h
    · exact ih c h
    · rename_i hpa
      rw [List.head?_cons, Option.some.injEq] at h
      rw [← h]
      simpa using hpa

lemma collapseWs_head (l : List Char) :
    (collapseWs l).head? = l.head?.map (fun c => if isPySpace c then ' ' else c) := by
  cases l with
  | nil => rw [collapseWs]; rfl
  | cons c rest =>
    rw [collapseWs]
    split
    · rename_i h; simp [h]
    · rename_i h; simp [h]

lemma collapseWs_mem : ∀ (l : List Char), ∀ c ∈ collapseWs l, c ∈ l ∨ c = ' ' := by
  intro l
  induction l using collapseWs.induct with
  | case1 => intro c hc; simp [collapseWs] at hc
  | case2 c rest h ih =>
    intro d hd
    rw [collapseWs, if_pos h] at hd
    rcases List.mem_cons.mp hd with h2 | h2
    · exact Or.inr h2
    · rcases ih d h2 with h3 | h3
      · exact Or.inl (List.mem_cons_of_mem _ ((List.dropWhile_sublist _).mem h3))
      · exact Or.inr h3
  | case3 c rest h ih =>
    intro d hd
    rw [collapseWs, if_neg h] at hd
    rcases List.mem_cons.mp hd with h2 | h2
    · exact Or.inl (h2 ▸ List.mem_cons_self _ _)
    · rcases ih d h2 with h3 | h3
      · exact Or.inl (List.mem_cons_of_mem _ h3)
      · exact Or.inr h3

lemma collapseWs_goodWs : ∀ (l : List Char), GoodWs (collapseWs l) := by
  intro l
  induction l using collapseWs.induct with
  | case1 => exact ⟨by simp [collapseWs], by simp [collapseWs]⟩
  | case2 c rest h ih =>
    rw [collapseWs, if_pos h]
    refine ⟨?_, ?_⟩
    · intro d hd hsp
      rcases List.mem_cons.mp hd with h2 | h2
      · exact h2
      · exact ih.1 d h2 hsp
    · rw [List.chain'_cons']
      refine ⟨?_, ih.2⟩
      intro y hy
      rw [collapseWs_head] at hy
      rcases hh : (rest.dropWhile isPySpace).head? with _ | e
      · rw [hh] at hy; simp at hy
      · rw [hh] at hy
        have hy2 : (if isPySpace e = true then ' ' else e) = y := by simpa using hy
        have he : isPySpace e = false := dropWhile_head_not _ _ _ hh
        rw [← hy2, if_neg (by simp [he])]
        simp [he]
  | case3 c rest h ih =>
    rw [collapseWs, if_neg h]
    refine ⟨?_, ?_⟩
    · intro d hd hsp
      rcases List.mem_cons.mp hd with h2 | h2
      · exact absurd (h2 ▸ hsp) h
      · exact ih.1 d h2 hsp
    · rw [List.chain'_cons']
      refine ⟨?_, ih.2⟩
      intro y hy
      exact fun hcon => absurd hcon.1 h

lemma collapseWs_eq_self : ∀ (l : List Char), GoodWs l → collapseWs l = l := by
  intro l
  induction l using collapseWs.induct with
  | case1 => intro _; rw [collapseWs]
  | case2 c rest h ih =>
    intro hg
    have hc : c = ' ' := hg.1 c (List.mem_cons_self _ _) h
    have hdrop : rest.dropWhile isPySpace = rest := by
      cases hr : rest with
      | nil => rfl
      | cons e rest2 =>
        have hch := hg.2
        rw [hr, List.chain'_cons] at hch
        have he2 : isPySpace e = false := by
          cases he : isPySpace e
          · rfl
          · exact absurd ⟨h, he⟩ hch.1
        rw [List.dropWhile_cons, if_neg (by simp [he2])]
    have hgrest : GoodWs rest := by
      refine ⟨fun d hd hsp => hg.1 d (List.mem_cons_of_mem _ hd) hsp, ?_⟩
      exact (List.chain'_cons'.mp hg.2).2
    rw [hdrop] at ih
    rw [collapseWs, if_pos h, hdrop, ih hgrest, hc]
  | case3 c rest h ih =>
    intro hg
    rw [collapseWs, if_neg h]
    have hgrest : GoodWs rest := by
      refine ⟨fun d hd hsp => hg.1 d (List.mem_cons_of_mem _ hd) hsp, ?_⟩
      exact (List.chain'_cons'.mp hg.2).2
    rw [ih hgrest]

lemma pyStrip_within (l : List Char) : pyStrip l <:+: l :=
  List.IsInfix.trans ( List.IsPrefix.isInfix (List.rdropWhile_prefix _ _))
    ( List.IsSuffix.isInfix (List.dropWhile_suffix _))

lemma pyStrip_head_not (l : List Char) (c : Char) (h : (pyStrip l).head? = some c) :
    isPySpace c = false := by
  unfold pyStrip at h
  have hpre := List.rdropWhile_prefix isPySpace (l.dropWhile isPySpace)
  rcases hpre with ⟨t, ht⟩
  have hne : (l.dropWhile isPySpace).rdropWhile isPySpace ≠ [] := by
    intro hnil
    rw [hnil] at h
    simp at h
  have : (l.dropWhile isPySpace).head? = some c := by
    rw [← ht]
    rcases he : (l.dropWhile isPySpace).rdropWhile isPySpace with _ | ⟨d, rest⟩
    · exact absurd he hne
    · rw [he] at h
      rw [List.head?_cons, Option.some.injEq] at h
      rw [List.cons_append, List.head?_cons, h]
  exact dropWhile_head_not _ _ _ this

lemma pyStrip_last_not (l : List Char) (hl : pyStrip l ≠ []) :
    isPySpace ((pyStrip l).getLast hl) = false := by
  unfold pyStrip at *
  have := List.rdropWhile_last_not isPySpace (l.dropWhile isPySpace) hl
  simpa using this

lemma pyStrip_eq_self (l : List Char)
    (hhead : ∀ c, l.head? = some c → isPySpace c = false)
    (hlast : ∀ (hl : l ≠ []), isPySpace (l.getLast hl) = false) :
    pyStrip l = l := by
  unfold pyStrip
  have h1 : l.dropWhile isPySpace = l := by
    rw [List.dropWhile_eq_self_iff]
    intro hl
    have hh : l.head? = some (l.get ⟨0, hl⟩) := by
      rcases l with _ | ⟨c, rest⟩
      · simp at hl
      · rfl
    rw [hhead _ hh]
    simp
  rw [h1]
  rw [List.rdropWhile_eq_self_iff]
  intro hl
  simp [hlast hl]

/-- C9: target normalization is idempotent. -/
theorem C9_normalize_idempotent (x : String) :
    normalize_target (normalize_target x) = normalize_target x := by
  unfold normalize_target
  set y := pyStrip (collapseWs (replaceHyphen (pyLower (pyStrip x.data)))) with hy
  have hydata : (String.mk y).data = y := rfl
  rw [hydata]
  -- characters of y are fixed by lowerChar
  have hylower : ∀ c ∈ y, lowerChar c = c := by
    intro c hc
    have hc2 : c ∈ collapseWs (replaceHyphen (pyLower (pyStrip x.data))) :=
      (pyStrip_within _).sublist.mem hc
    rcases collapseWs_mem _ c hc2 with h3 | h3
    · rw [replaceHyphen_eq] at h3
      rcases List.mem_map.mp h3 with ⟨d, _, hd⟩
      rw [← hd]
      exact lowerChar_idem d
    · rw [h3]
      rfl
  -- y has no leading or trailing whitespace
  have hyhead : ∀ c, y.head? = some c → isPySpace c = false := fun c h =>
    pyStrip_head_not _ c h
  have hylast : ∀ (hl : y ≠ []), isPySpace (y.getLast hl) = false := fun hl =>
    pyStrip_last_not _ hl
  -- y is in collapsed-whitespace form
  have hygood : GoodWs y := by
    have hg := collapseWs_goodWs (replaceHyphen (pyLower (pyStrip x.data)))
    refine ⟨?_, List.Chain'.infix hg.2 (pyStrip_within _)⟩
    intro c hc hsp
    exact hg.1 c ((pyStrip_within _).sublist.mem hc) hsp
  rw [pyStrip_eq_self y hyhead hylast]
  have hlow : pyLower y = y := by
    unfold pyLower
    have h : ∀ c ∈ y, lowerChar c = c := hylower
    calc y.map lowerChar = y.map id := List.map_congr_left h
      _ = y := List.map_id y
  rw [hlow, replaceHyphen_eq, collapseWs_eq_self y hygood,
    pyStrip_eq_self y hyhead hylast]

/-! ## C1: the deduplicator invariant -/

/-- Two sections' half-open position ranges `[start_pos, end_pos)` intersect. -/
def rangesOverlap (a b : CovenantSectionB) : Prop :=
  max a.start_pos b.start_pos < min a.end_pos b.end_pos

/-- `c` contests the range held by `e`: the code's overlap test
`e.start_pos <= c.start_pos < e.end_pos` in `_deduplicate_sections`. -/
def contests (e c : CovenantSectionB) : Prop :=
  e.start_pos ≤ c.start_pos ∧ c.start_pos < e.end_pos

/-- Core invariant of the scan: on a separated accumulator whose elements all
start no later than the incoming candidate, and whose already-visited prefix
ends before the candidate starts, the scan keeps the accumulator separated,
and on a no-conflict verdict every survivor ends before the candidate starts. -/
lemma dedupScan_spec (c : CovenantSectionB) :
    ∀ (L : List CovenantSectionB) (i : Nat),
      L.Pairwise (fun a b => a.end_pos ≤ b.start_pos) →
      (∀ x ∈ L, x.start_pos ≤ c.start_pos) →
      (∀ j (hj : j < L.length), j < i → (L.get ⟨j, hj⟩).end_pos ≤ c.start_pos) →
      (dedupScan c L i).1.Pairwise (fun a b => a.end_pos ≤ b.start_pos) ∧
        ((dedupScan c L i).2 = false →
          ∀ x ∈ (dedupScan c L i).1, x.end_pos ≤ c.start_pos) := by
  intro L i
  induction L, i using dedupScan.induct c with
  | case1 L i h e hov hconf ih =>
    intro hB hA hpre
    have hov2 : (L.get ⟨i, h⟩).start_pos ≤ c.start_pos ∧
        c.start_pos < (L.get ⟨i, h⟩).end_pos := hov
    -- the examined (and evicted) element must be the last one
    have hlast : L.length = i + 1 := by
      by_contra hne
      have hi1 : i + 1 < L.length := by omega
      have hsep : (L.get ⟨i, h⟩).end_pos ≤ (L.get ⟨i + 1, hi1⟩).start_pos := by
        rw [List.pairwise_iff_get] at hB
        exact hB ⟨i, h⟩ ⟨i + 1, hi1⟩ (by simp)
      have hst : (L.get ⟨i + 1, hi1⟩).start_pos ≤ c.start_pos :=
        hA _ (L.get_mem _ _)
      exact absurd hov2.2 (by omega)
    -- e is not among the earlier elements, so erasing e erases the last slot
    have henotin : L.get ⟨i, h⟩ ∉ L.take i := by
      intro hmem
      rcases List.mem_take_iff_getElem.mp hmem with ⟨j, hj, hjy⟩
      have hj2 : j < L.length := by omega
      have hj3 := hpre j hj2 (by omega)
      rw [List.get_eq_getElem] at hj3
      rw [hjy] at hj3
      exact absurd hov2.2 (by omega)
    have hdecomp : L = L.take i ++ [L.get ⟨i, h⟩] := by
      have h1 : L.drop i = [L.get ⟨i, h⟩] := by
        rw [List.get_eq_getElem, List.drop_eq_getElem_cons h,
          List.drop_eq_nil_of_le (by omega : L.length ≤ i + 1)]
      conv_lhs => rw [← List.take_append_drop i L]
      rw [h1]
    have herase : L.erase (L.get ⟨i, h⟩) = L.take i := by
      nth_rewrite 1 [hdecomp]
      rw [List.erase_append_right _ henotin, List.erase_cons_head]
      simp
    have hlen2 : ¬ (i + 1 < (L.erase (L.get ⟨i, h⟩)).length) := by
      rw [herase]
      have := List.length_take_le i L
      omega
    have hstop : dedupScan c (L.erase (L.get ⟨i, h⟩)) (i + 1) =
        (L.erase (L.get ⟨i, h⟩), false) := by
      rw [dedupScan, dif_neg hlen2]
    rw [dedupScan]
    simp only [h, dif_pos, if_pos hov, if_pos hconf]
    rw [hstop, herase]
    constructor
    · exact hB.sublist (List.take_sublist _ _)
    · intro _ x hx
      rcases List.mem_take_iff_getElem.mp hx with ⟨j, hj, hjy⟩
      have hj2 : j < L.length := by omega
      have := hpre j hj2 (by omega)
      rw [List.get_eq_getElem] at this
      rw [hjy] at this
      exact this
  | case2 L i h e hov hconf =>
    intro hB hA hpre
    rw [dedupScan]
    simp only [h, dif_pos, if_pos hov, if_neg hconf]
    exact ⟨hB, by intro hfalse; simp at hfalse⟩
  | case3 L i h e hov ih =>
    intro hB hA hpre
    have hov2 : ¬ ((L.get ⟨i, h⟩).start_pos ≤ c.start_pos ∧
        c.start_pos < (L.get ⟨i, h⟩).end_pos) := hov
    have hei : (L.get ⟨i, h⟩).end_pos ≤ c.start_pos := by
      have hst : (L.get ⟨i, h⟩).start_pos ≤ c.start_pos := hA _ (L.get_mem _ _)
      by_contra hlt
      exact hov2 ⟨hst, by omega⟩
    have hpre2 : ∀ j (hj : j < L.length), j < i + 1 →
        (L.get ⟨j, hj⟩).end_pos ≤ c.start_pos := by
      intro j hj hji
      rcases Nat.lt_or_ge j i with h2 | h2
      · exact hpre j hj h2
      · have : j = i := by omega
        subst this
        exact hei
    have := ih hB hA hpre2
    rw [dedupScan]
    simp only [h, dif_pos, if_neg hov]
    exact this
  | case4 L i h =>
    intro hB hA hpre
    rw [dedupScan]
    simp only [dif_neg h]
    refine ⟨hB, fun _ x hx => ?_⟩
    rcases List.mem_iff_getElem.mp hx with ⟨j, hj, hjy⟩
    have := hpre j hj (by omega)
    rw [List.get_eq_getElem] at this
    rw [hjy] at this
    exact this

lemma dedupInsert_sep (D : List CovenantSectionB) (c : CovenantSectionB)
    (hB : D.Pairwise (fun a b => a.end_pos ≤ b.start_pos))
    (hA : ∀ x ∈ D, x.start_pos ≤ c.start_pos) :
    (dedupInsert D c).Pairwise (fun a b => a.end_pos ≤ b.start_pos) := by
  have hspec := dedupScan_spec c D 0 hB hA (by omega)
  unfold dedupInsert
  dsimp only
  split
  · exact hspec.1
  · rename_i hflag
    rw [List.pairwise_append]
    refine ⟨hspec.1, List.pairwise_singleton _ _, ?_⟩
    intro x hx y hy
    rw [List.mem_singleton.mp hy]
    exact hspec.2 (by simpa using hflag) x hx

lemma foldl_dedupInsert_sep :
    ∀ (todo D : List CovenantSectionB),
      todo.Pairwise (fun a b => a.start_pos ≤ b.start_pos) →
      D.Pairwise (fun a b => a.end_pos ≤ b.start_pos) →
      (∀ x ∈ D, ∀ c ∈ todo, x.start_pos ≤ c.start_pos) →
      (todo.foldl dedupInsert D).Pairwise (fun a b => a.end_pos ≤ b.start_pos) := by
  intro todo
  induction todo with
  | nil => intro D _ hB _; exact hB
  | cons c rest ih =>
    intro D hsort hB hA
    rw [List.foldl_cons]
    refine ih _ (List.pairwise_cons.mp hsort).2
      (dedupInsert_sep D c hB (fun x hx => hA x hx c (List.mem_cons_self _ _))) ?_
    intro x hx c2 hc2
    rcases dedupInsert_mem hx with h2 | h2
    · exact hA x h2 c2 (List.mem_cons_of_mem _ hc2)
    · rw [h2]
      exact (List.pairwise_cons.mp hsort).1 c2 hc2

lemma dedupScan_true_rejector (c : CovenantSectionB) :
    ∀ (L : List CovenantSectionB) (i : Nat), (dedupScan c L i).2 = true →
      ∃ e ∈ (dedupScan c L i).1, contests e c ∧ c.confidence ≤ e.confidence := by
  intro L i
  induction L, i using dedupScan.induct c with
  | case1 L i h e hov hconf ih =>
    intro hflag
    rw [dedupScan] at hflag ⊢
    simp only [h, dif_pos, if_pos hov, if_pos hconf] at hflag ⊢
    exact ih hflag
  | case2 L i h e hov hconf =>
    intro _
    rw [dedupScan]
    simp only [h, dif_pos, if_pos hov, if_neg hconf]
    exact ⟨L.get ⟨i, h⟩, L.get_mem _ _, hov, le_of_not_lt hconf⟩
  | case3 L i h e hov ih =>
    intro hflag
    rw [dedupScan] at hflag ⊢
    simp only [h, dif_pos, if_neg hov] at hflag ⊢
    exact ih hflag
  | case4 L i h =>
    intro hflag
    rw [dedupScan] at hflag
    simp only [dif_neg h] at hflag
    cases hflag

lemma dedupScan_evicted (c : CovenantSectionB) :
    ∀ (L : List CovenantSectionB) (i : Nat), ∀ e ∈ L,
      e ∉ (dedupScan c L i).1 → contests e c ∧ e.confidence < c.confidence := by
  intro L i
  induction L, i using dedupScan.induct c with
  | case1 L i h e0 hov hconf ih =>
    intro e he hnot
    rw [dedupScan] at hnot
    simp only [h, dif_pos, if_pos hov, if_pos hconf] at hnot
    by_cases heq : e = L.get ⟨i, h⟩
    · rw [heq]
      exact ⟨hov, hconf⟩
    · have hmem : e ∈ L.erase (L.get ⟨i, h⟩) := (List.mem_erase_of_ne heq).mpr he
      exact ih e hmem hnot
  | case2 L i h e0 hov hconf =>
    intro e he hnot
    rw [dedupScan] at hnot
    simp only [h, dif_pos, if_pos hov, if_neg hconf] at hnot
    exact absurd he hnot
  | case3 L i h e0 hov ih =>
    intro e he hnot
    rw [dedupScan] at hnot
    simp only [h, dif_pos, if_neg hov] at hnot
    exact ih e he hnot
  | case4 L i h =>
    intro e he hnot
    rw [dedupScan] at hnot
    simp only [dif_neg h] at hnot
    exact absurd he hnot

/-- C1: the deduplicator invariant.  (1) The returned list has no two members
with overlapping `[start_pos, end_pos)` ranges.  (2) Whenever an incoming
candidate is rejected, some surviving occupant of its contested range has
confidence at least the candidate's.  (3) Whenever an occupant is evicted
during a scan, the incoming candidate contested its range with strictly
greater confidence. -/
theorem C1_deduplicator_invariant :
    (∀ sections : List CovenantSectionB,
      (_deduplicate_sections sections).Pairwise (fun a b => ¬rangesOverlap a b)) ∧
    (∀ c L, (dedupScan c L 0).2 = true →
      ∃ e ∈ (dedupScan c L 0).1, contests e c ∧ c.confidence ≤ e.confidence) ∧
    (∀ c L i, ∀ e ∈ L, e ∉ (dedupScan c L i).1 →
      contests e c ∧ e.confidence < c.confidence) := by
  refine ⟨?_, fun c L => dedupScan_true_rejector c L 0,
    fun c L i => dedupScan_evicted c L i⟩
  intro sections
  unfold _deduplicate_sections
  split
  · simp
  · have hsorted : (sections.mergeSort
        (fun a b => a.start_pos ≤ b.start_pos)).Pairwise
        (fun a b => (decide (a.start_pos ≤ b.start_pos) : Bool) = true) := by
      have := @List.sorted_mergeSort CovenantSectionB
        (fun a b => decide (a.start_pos ≤ b.start_pos))
        (fun a b c h1 h2 => by
          simp only [decide_eq_true_eq] at h1 h2 ⊢
          omega)
        (fun a b => by
          simp only [Bool.or_eq_true, decide_eq_true_eq]
          omega)
        sections
      exact this
    have hsorted2 : (sections.mergeSort
        (fun a b => a.start_pos ≤ b.start_pos)).Pairwise
        (fun a b => a.start_pos ≤ b.start_pos) := by
      refine hsorted.imp ?_
      intro a b hab
      simpa using hab
    have hsep := foldl_dedupInsert_sep _ [] hsorted2 (by simp) (by simp)
    refine hsep.imp ?_
    intro a b hab
    unfold rangesOverlap
    omega

unseal dedupScan in
/-- Witness for C1: a concrete rejection (candidate at [5,8) conf 0 against an
occupant at [0,10) conf 1) and a concrete eviction (occupant at [0,10) conf 0
evicted by a candidate at [5,8) conf 1). -/
theorem C1_deduplicator_invariant_witness :
    (∃ e ∈ (dedupScan ⟨"t", "", "z", 5, 8, 0⟩ [⟨"t", "", "y", 0, 10, 1⟩] 0).1,
        contests e ⟨"t", "", "z", 5, 8, 0⟩ ∧
        (⟨"t", "", "z", 5, 8, 0⟩ : CovenantSectionB).confidence ≤ e.confidence) ∧
    (contests ⟨"t", "", "v", 0, 10, 0⟩ ⟨"t", "", "w", 5, 8, 1⟩ ∧
      (⟨"t", "", "v", 0, 10, 0⟩ : CovenantSectionB).confidence <
        (⟨"t", "", "w", 5, 8, 1⟩ : CovenantSectionB).confidence) :=
  ⟨C1_deduplicator_invariant.2.1 _ _ (by decide),
   C1_deduplicator_invariant.2.2 ⟨"t", "", "w", 5, 8, 1⟩ [⟨"t", "", "v", 0, 10, 0⟩] 0
     ⟨"t", "", "v", 0, 10, 0⟩ (by decide) (by decide)⟩

/-! ## C2: spec-side heading heuristics -/

/-- A run of Python whitespace. -/
def WsRun (l : List Char) : Prop := ∀ x ∈ l, isPySpace x = true

/-- A run of decimal digits. -/
def DigitRun (l : List Char) : Prop := ∀ x ∈ l, x.isDigit = true

/-- `[.<integer>]...` groups, as the spec words them. -/
inductive DotGroups : List Char → Prop
  | nil : DotGroups []
  | grp (ds rest : List Char) : ds ≠ [] → DigitRun ds → DotGroups rest →
      DotGroups ('.' :: (ds ++ rest))

/-- The spec's enumerator heuristic, parametrised by the requirement `q` on
the first character of the word following `Section <integer>[.<integer>...]`:
optional leading whitespace, the word `section` (matched in any letter case —
the generous reading of the spec's `Section`), whitespace, an integer,
dot-separated integer groups, whitespace, then a word whose first character
satisfies `q`. -/
def EnumHeadingWith (q : Char → Bool) (line : List Char) : Prop :=
  ∃ w1 t w2 ds g w3 c rest,
    line = w1 ++ (t ++ (w2 ++ (ds ++ (g ++ (w3 ++ c :: rest))))) ∧
    WsRun w1 ∧ t.map lowerChar = "section".data ∧
    w2 ≠ [] ∧ WsRun w2 ∧ ds ≠ [] ∧ DigitRun ds ∧ DotGroups g ∧
    w3 ≠ [] ∧ WsRun w3 ∧ q c = true

/-- The spec's heuristic 1 as the claim words it: the following word must be
capitalized. -/
def SpecEnumHeading (line : List Char) : Prop := EnumHeadingWith Char.isUpper line

/-- The amended heuristic 1, matching the code's `(?i)` semantics: the
following word may start with a letter of either case. -/
def CIEnumHeading (line : List Char) : Prop := EnumHeadingWith Char.isAlpha line

lemma matchCaseless_append (p t s : List Char) (h : t.map lowerChar = p) :
    matchCaseless p (t ++ s) = some s := by
  induction t generalizing p with
  | nil => rw [← h]; rfl
  | cons a t' ih =>
    rw [← h]
    simp only [List.map_cons, List.cons_append, matchCaseless, if_pos rfl]
    exact ih _ rfl

lemma matchCaseless_some (p s r : List Char) (h : matchCaseless p s = some r) :
    ∃ t, s = t ++ r ∧ t.map lowerChar = p := by
  induction p generalizing s with
  | nil =>
    simp only [matchCaseless, Option.some.injEq] at h
    exact ⟨[], by simp [h], rfl⟩
  | cons a p' ih =>
    cases s with
    | nil => simp [matchCaseless] at h
    | cons c cs =>
      simp only [matchCaseless] at h
      split at h
      · rcases ih _ h with ⟨t', ht1, ht2⟩
        rename_i hlc
        exact ⟨c :: t', by simp [ht1], by simp [ht2, hlc]⟩
      · cases h

lemma dropWhile_run_append (p : Char → Bool) (w X : List Char)
    (hw : ∀ x ∈ w, p x = true) (hX : X.dropWhile p = X) :
    (w ++ X).dropWhile p = X := by
  induction w with
  | nil => simpa using hX
  | cons y ys ih =>
    rw [List.cons_append, List.dropWhile_cons, if_pos (hw y (by simp))]
    exact ih (fun x hx => hw x (by simp [hx]))

lemma takeWhile_run_append (p : Char → Bool) (w X : List Char)
    (hw : ∀ x ∈ w, p x = true) (hX : X.dropWhile p = X) :
    (w ++ X).takeWhile p = w := by
  induction w with
  | nil =>
    cases X with
    | nil => rfl
    | cons a l =>
      rw [List.dropWhile_cons] at hX
      split at hX
      · have h2 := congrArg List.length hX
        have h3 := (@List.dropWhile_sublist _ l p).length_le
        simp only [List.length_cons] at h2
        omega
      · rename_i hpa
        simp only [List.nil_append, List.takeWhile_cons, if_neg hpa]
  | cons y ys ih =>
    rw [List.cons_append, List.takeWhile_cons, if_pos (hw y (by simp))]
    rw [ih (fun x hx => hw x (by simp [hx]))]

lemma isDigit_toNat {c : Char} (h : c.isDigit = true) : 48 ≤ c.toNat ∧ c.toNat ≤ 57 := by
  simp [Char.isDigit] at h
  exact h

lemma isAlpha_toNat {c : Char} (h : c.isAlpha = true) :
    (65 ≤ c.toNat ∧ c.toNat ≤ 90) ∨ (97 ≤ c.toNat ∧ c.toNat ≤ 122) := by
  unfold Char.isAlpha Char.isUpper Char.isLower at h
  simp only [Bool.and_eq_true, Bool.or_eq_true, decide_eq_true_eq] at h
  exact h

lemma isPySpace_of_isDigit (c : Char) (h : c.isDigit = true) : isPySpace c = false := by
  cases hs : isPySpace c
  · rfl
  · have h1 := (isPySpace_iff_toNat c).mp hs
    have h2 := isDigit_toNat h
    omega

lemma isPySpace_of_isAlpha (c : Char) (h : c.isAlpha = true) : isPySpace c = false := by
  cases hs : isPySpace c
  · rfl
  · have h1 := (isPySpace_iff_toNat c).mp hs
    have h2 := isAlpha_toNat h
    omega

lemma eatDotGroups_no_dot (a : Char) (l : List Char) (ha : a ≠ '.') :
    eatDotGroups (a :: l) = a :: l := by
  rw [eatDotGroups.eq_def]
  split
  · rename_i c rest heq
    rw [List.cons.injEq] at heq
    exact absurd heq.1 ha
  · rfl

lemma eatDotGroups_dot_digit (c : Char) (l : List Char) (hc : c.isDigit = true) :
    eatDotGroups ('.' :: c :: l) = eatDotGroups ((c :: l).dropWhile Char.isDigit) := by
  rw [eatDotGroups.eq_def]
  split
  · rename_i c2 rest heq
    rw [List.cons.injEq, List.cons.injEq] at heq
    obtain ⟨-, hc2, hrest⟩ := heq
    subst hc2
    subst hrest
    rw [if_pos hc]
  · rename_i hno
    exact absurd rfl (hno c l)

lemma dropWhile_digits_groups (ds : List Char) (hds : DigitRun ds) (g : List Char)
    (hg : DotGroups g) (a : Char) (W : List Char) (ha : a.isDigit = false) :
    (ds ++ (g ++ a :: W)).dropWhile Char.isDigit = g ++ a :: W := by
  apply dropWhile_run_append _ _ _ hds
  cases hg with
  | nil => simp [List.dropWhile_cons, ha]
  | grp ds2 rest hne hdig hrest =>
    simp [List.dropWhile_cons]

lemma eatDotGroups_groups_append (g : List Char) (hg : DotGroups g) (a : Char)
    (W : List Char) (ha1 : a ≠ '.') (ha2 : a.isDigit = false) :
    eatDotGroups (g ++ a :: W) = a :: W := by
  induction hg with
  | nil => simpa using eatDotGroups_no_dot a W ha1
  | grp ds rest hne hdig hrest ih =>
    obtain ⟨d, ds', rfl⟩ : ∃ d ds', ds = d :: ds' := by
      cases ds with
      | nil => exact absurd rfl hne
      | cons d ds' => exact ⟨d, ds', rfl⟩
    have hd : d.isDigit = true := hdig d (by simp)
    rw [show ('.' :: ((d :: ds') ++ rest)) ++ a :: W =
      '.' :: d :: (ds' ++ (rest ++ a :: W)) by simp]
    rw [eatDotGroups_dot_digit d _ hd]
    have hdrop : (d :: (ds' ++ (rest ++ a :: W))).dropWhile Char.isDigit =
        rest ++ a :: W := by
      rw [List.dropWhile_cons, if_pos hd]
      exact dropWhile_digits_groups ds' (fun x hx => hdig x (by simp [hx]))
        rest hrest a W ha2
    rw [hdrop]
    exact ih

lemma eatDotGroups_exists (l : List Char) :
    ∃ g, DotGroups g ∧ l = g ++ eatDotGroups l := by
  induction l using eatDotGroups.induct with
  | case1 c rest hc ih =>
    rcases ih with ⟨g', hg', heq⟩
    refine ⟨'.' :: ((c :: rest).takeWhile Char.isDigit ++ g'), ?_, ?_⟩
    · refine DotGroups.grp _ _ ?_ (fun x hx => List.mem_takeWhile_imp hx) hg'
      simp [List.takeWhile_cons, hc]
    · rw [eatDotGroups_dot_digit c rest hc]
      have hsplit : c :: rest =
          (c :: rest).takeWhile Char.isDigit ++ (c :: rest).dropWhile Char.isDigit :=
        (List.takeWhile_append_dropWhile Char.isDigit (c :: rest)).symm
      calc '.' :: c :: rest
          = '.' :: ((c :: rest).takeWhile Char.isDigit ++
              (c :: rest).dropWhile Char.isDigit) := by rw [← hsplit]
        _ = '.' :: ((c :: rest).takeWhile Char.isDigit ++
              (g' ++ eatDotGroups ((c :: rest).dropWhile Char.isDigit))) := by rw [← heq]
        _ = ('.' :: ((c :: rest).takeWhile Char.isDigit ++ g')) ++
              eatDotGroups ((c :: rest).dropWhile Char.isDigit) := by simp
  | case2 c rest hc =>
    refine ⟨[], DotGroups.nil, ?_⟩
    rw [eatDotGroups.eq_def]
    split
    · rename_i c2 rest2 heq
      rw [List.cons.injEq, List.cons.injEq] at heq
      obtain ⟨-, hc2, hrest⟩ := heq
      subst hc2
      subst hrest
      rw [if_neg hc]
      rfl
    · rfl
  | case3 l hno =>
    refine ⟨[], DotGroups.nil, ?_⟩
    rw [List.nil_append]
    cases l with
    | nil =>
      conv_rhs => rw [eatDotGroups.eq_def]
    | cons a l2 =>
      by_cases ha : a = '.'
      · subst ha
        cases l2 with
        | nil =>
          conv_rhs => rw [eatDotGroups.eq_def]
          rfl
        | cons c rest => exact (hno c rest rfl).elim
      · rw [eatDotGroups_no_dot a l2 ha]

lemma isDigit_of_isPySpace (c : Char) (h : isPySpace c = true) : c.isDigit = false := by
  cases hd : c.isDigit
  · rfl
  · have h1 := isDigit_toNat hd
    have h2 := (isPySpace_iff_toNat c).mp h
    omega

lemma parseEnum_sound (line : List Char) (h : parseEnumHeading line = true) :
    EnumHeadingWith Char.isAlpha line := by
  unfold parseEnumHeading at h
  rcases hm : matchCaseless "section".data (line.dropWhile isPySpace) with _ | s2 <;>
    rw [hm] at h
  · simp at h
  dsimp only at h
  rcases matchCaseless_some _ _ _ hm with ⟨t, hteq, htmap⟩
  by_cases he1 : (s2.takeWhile isPySpace).isEmpty = true
  · rw [if_pos he1] at h; cases h
  rw [if_neg he1] at h
  have hw2ne : s2.takeWhile isPySpace ≠ [] := fun hnil => he1 (by rw [hnil]; rfl)
  obtain ⟨s3, hs3⟩ : ∃ x, s2.dropWhile isPySpace = x := ⟨_, rfl⟩
  rw [hs3] at h
  by_cases he2 : (s3.takeWhile Char.isDigit).isEmpty = true
  · rw [if_pos he2] at h; cases h
  rw [if_neg he2] at h
  have hdsne : s3.takeWhile Char.isDigit ≠ [] := fun hnil => he2 (by rw [hnil]; rfl)
  obtain ⟨s3d, hs3d⟩ : ∃ x, s3.dropWhile Char.isDigit = x := ⟨_, rfl⟩
  rw [hs3d] at h
  rcases eatDotGroups_exists s3d with ⟨g, hg, hgeq⟩
  obtain ⟨s4, hs4⟩ : ∃ x, eatDotGroups s3d = x := ⟨_, rfl⟩
  rw [hs4] at h
  rw [hs4] at hgeq
  by_cases he3 : (s4.takeWhile isPySpace).isEmpty = true
  · rw [if_pos he3] at h; cases h
  rw [if_neg he3] at h
  have hw3ne : s4.takeWhile isPySpace ≠ [] := fun hnil => he3 (by rw [hnil]; rfl)
  rcases hcr : s4.dropWhile isPySpace with _ | ⟨c, rest⟩ <;> rw [hcr] at h
  · cases h
  dsimp only at h
  refine ⟨line.takeWhile isPySpace, t, s2.takeWhile isPySpace, s3.takeWhile Char.isDigit,
    g, s4.takeWhile isPySpace, c, rest, ?_, fun x hx => List.mem_takeWhile_imp hx, htmap,
    hw2ne, fun x hx => List.mem_takeWhile_imp hx, hdsne,
    fun x hx => List.mem_takeWhile_imp hx, hg, hw3ne,
    fun x hx => List.mem_takeWhile_imp hx, h⟩
  calc line = line.takeWhile isPySpace ++ line.dropWhile isPySpace :=
        (List.takeWhile_append_dropWhile isPySpace line).symm
    _ = line.takeWhile isPySpace ++ (t ++ s2) := by rw [hteq]
    _ = line.takeWhile isPySpace ++ (t ++ (s2.takeWhile isPySpace ++ s3)) := by
        rw [← hs3, List.takeWhile_append_dropWhile]
    _ = line.takeWhile isPySpace ++ (t ++ (s2.takeWhile isPySpace ++
          (s3.takeWhile Char.isDigit ++ s3d))) := by
        rw [← hs3d, List.takeWhile_append_dropWhile]
    _ = line.takeWhile isPySpace ++ (t ++ (s2.takeWhile isPySpace ++
          (s3.takeWhile Char.isDigit ++ (g ++ s4)))) := by rw [← hgeq]
    _ = line.takeWhile isPySpace ++ (t ++ (s2.takeWhile isPySpace ++
          (s3.takeWhile Char.isDigit ++ (g ++ (s4.takeWhile isPySpace ++
            s4.dropWhile isPySpace))))) := by rw [List.takeWhile_append_dropWhile]
    _ = line.takeWhile isPySpace ++ (t ++ (s2.takeWhile isPySpace ++
          (s3.takeWhile Char.isDigit ++ (g ++ (s4.takeWhile isPySpace ++
            c :: rest))))) := by rw [hcr]

lemma parseEnum_complete (line : List Char) (he : EnumHeadingWith Char.isAlpha line) :
    parseEnumHeading line = true := by
  obtain ⟨w1, t, w2, ds, g, w3, c, rest, heq, hw1, htmap, hw2ne, hw2, hdsne, hds,
    hg, hw3ne, hw3, hca⟩ := he
  subst heq
  obtain ⟨t0, t', rfl⟩ : ∃ t0 t', t = t0 :: t' := by
    cases t with
    | nil => simp at htmap
    | cons a b => exact ⟨a, b, rfl⟩
  obtain ⟨b2, w2', rfl⟩ : ∃ b w', w2 = b :: w' := by
    cases w2 with
    | nil => exact absurd rfl hw2ne
    | cons a b => exact ⟨a, b, rfl⟩
  obtain ⟨d0, ds', rfl⟩ : ∃ d d', ds = d :: d' := by
    cases ds with
    | nil => exact absurd rfl hdsne
    | cons a b => exact ⟨a, b, rfl⟩
  obtain ⟨b3, w3', rfl⟩ : ∃ b w', w3 = b :: w' := by
    cases w3 with
    | nil => exact absurd rfl hw3ne
    | cons a b => exact ⟨a, b, rfl⟩
  have hlc : lowerChar t0 = 's' := by
    rw [show ("section".data : List Char) = 's' :: "ection".data from rfl] at htmap
    simp only [List.map_cons, List.cons.injEq] at htmap
    exact htmap.1
  have ht0 : isPySpace t0 = false := by
    rw [← isPySpace_lowerChar, hlc]
    rfl
  have hb2 : isPySpace b2 = true := hw2 b2 (by simp)
  have hd0 : d0.isDigit = true := hds d0 (by simp)
  have hb3 : isPySpace b3 = true := hw3 b3 (by simp)
  have hb3dot : b3 ≠ '.' := by
    intro hb
    rw [hb] at hb3
    cases hb3
  unfold parseEnumHeading
  have hstep1 : (w1 ++ ((t0 :: t') ++ ((b2 :: w2') ++ ((d0 :: ds') ++
      (g ++ ((b3 :: w3') ++ c :: rest)))))).dropWhile isPySpace =
      (t0 :: t') ++ ((b2 :: w2') ++ ((d0 :: ds') ++ (g ++ ((b3 :: w3') ++
        c :: rest)))) := by
    apply dropWhile_run_append _ _ _ hw1
    rw [List.cons_append, List.dropWhile_cons, if_neg (by simp [ht0])]
  rw [hstep1, matchCaseless_append _ _ _ htmap]
  dsimp only
  have hc1 : (((b2 :: w2') ++ ((d0 :: ds') ++ (g ++ ((b3 :: w3') ++
      c :: rest)))).takeWhile isPySpace).isEmpty = false := by
    rw [List.cons_append, List.takeWhile_cons, if_pos hb2]
    rfl
  rw [if_neg (ne_true_of_eq_false hc1)]
  have hstep2 : ((b2 :: w2') ++ ((d0 :: ds') ++ (g ++ ((b3 :: w3') ++
      c :: rest)))).dropWhile isPySpace =
      (d0 :: ds') ++ (g ++ ((b3 :: w3') ++ c :: rest)) := by
    apply dropWhile_run_append _ _ _ hw2
    rw [List.cons_append, List.dropWhile_cons, if_neg (by simp [isPySpace_of_isDigit d0 hd0])]
  rw [hstep2]
  have hc2 : (((d0 :: ds') ++ (g ++ ((b3 :: w3') ++
      c :: rest))).takeWhile Char.isDigit).isEmpty = false := by
    rw [List.cons_append, List.takeWhile_cons, if_pos hd0]
    rfl
  rw [if_neg (ne_true_of_eq_false hc2)]
  have hXdrop : (g ++ ((b3 :: w3') ++ c :: rest)).dropWhile Char.isDigit =
      g ++ ((b3 :: w3') ++ c :: rest) := by
    cases hg with
    | nil =>
      rw [List.nil_append, List.cons_append, List.dropWhile_cons,
        if_neg (ne_true_of_eq_false (isDigit_of_isPySpace b3 hb3))]
    | grp ds2 rest2 hne2 hdig2 hrest2 =>
      simp [List.dropWhile_cons]
  have hstep3 : ((d0 :: ds') ++ (g ++ ((b3 :: w3') ++
      c :: rest))).dropWhile Char.isDigit = g ++ ((b3 :: w3') ++ c :: rest) :=
    dropWhile_run_append _ _ _ hds hXdrop
  rw [hstep3]
  have hstep4 : eatDotGroups (g ++ ((b3 :: w3') ++ c :: rest)) =
      (b3 :: w3') ++ c :: rest :=
    eatDotGroups_groups_append g hg b3 (w3' ++ c :: rest) hb3dot
      (isDigit_of_isPySpace b3 hb3)
  rw [hstep4]
  have hc3 : (((b3 :: w3') ++ c :: rest).takeWhile isPySpace).isEmpty = false := by
    rw [List.cons_append, List.takeWhile_cons, if_pos hb3]
    rfl
  rw [if_neg (ne_true_of_eq_false hc3)]
  have hstep5 : ((b3 :: w3') ++ c :: rest).dropWhile isPySpace = c :: rest := by
    apply dropWhile_run_append _ _ _ hw3
    rw [List.dropWhile_cons, if_neg (by simp [isPySpace_of_isAlpha c hca])]
  rw [hstep5]
  exact hca

lemma parseEnum_iff (line : List Char) :
    parseEnumHeading line = true ↔ EnumHeadingWith Char.isAlpha line :=
  ⟨parseEnum_sound line, parseEnum_complete line⟩

/-- Heuristic 2 as the spec words it: the trimmed line is at least 8 characters
long and consists solely of uppercase letters, digits, spaces and the
punctuation set `& / - _ , . ( )`. -/
def AllCapsSpec (line : List Char) : Prop :=
  8 ≤ (pyStrip line).length ∧
    ∀ x ∈ pyStrip line,
      ('A' ≤ x ∧ x ≤ 'Z') ∨ ('0' ≤ x ∧ x ≤ '9') ∨ x = ' ' ∨ x = '&' ∨ x = '/' ∨
        x = '-' ∨ x = '_' ∨ x = ',' ∨ x = '.' ∨ x = '(' ∨ x = ')'

/-- Heuristic 3 as the spec words it: the trimmed line is at most 120
characters, has at least two whitespace-delimited words, and the fraction of
words whose first character is uppercase exceeds 60% (with the word count
guarded by `max 1` against division by zero, as the spec's edge case notes). -/
def TitleCaseSpec (line : List Char) : Prop :=
  (pyStrip line).length ≤ 120 ∧ 2 ≤ (pySplit (pyStrip line)).length ∧
    (3 : ℚ) / 5 <
      ((((pySplit (pyStrip line)).filter (fun w => (w.headD ' ').isUpper)).length : ℚ) /
        ((max 1 (pySplit (pyStrip line)).length : ℕ) : ℚ))

lemma allCapsChar_iff (x : Char) : allCapsChar x = true ↔
    (('A' ≤ x ∧ x ≤ 'Z') ∨ ('0' ≤ x ∧ x ≤ '9') ∨ x = ' ' ∨ x = '&' ∨ x = '/' ∨
      x = '-' ∨ x = '_' ∨ x = ',' ∨ x = '.' ∨ x = '(' ∨ x = ')') := by
  unfold allCapsChar
  simp only [Bool.or_eq_true, Bool.and_eq_true, decide_eq_true_eq]
  tauto

lemma allCaps_branch (line : List Char) :
    (8 ≤ (pyStrip line).length && !(pyStrip line).isEmpty &&
      (pyStrip line).all allCapsChar) = true ↔ AllCapsSpec line := by
  unfold AllCapsSpec
  simp only [Bool.and_eq_true, Bool.not_eq_true', decide_eq_true_eq, List.all_eq_true,
    allCapsChar_iff]
  constructor
  · rintro ⟨⟨h1, -⟩, h3⟩
    exact ⟨h1, h3⟩
  · rintro ⟨h1, h3⟩
    refine ⟨⟨h1, ?_⟩, h3⟩
    cases hE : (pyStrip line).isEmpty
    · rfl
    · rw [List.isEmpty_iff.mp hE] at h1
      simp at h1

lemma ratio_gt_iff (caps n : ℕ) :
    (3 : ℚ) / 5 < ((caps : ℕ) : ℚ) / ((max 1 n : ℕ) : ℚ) ↔ 3 * max 1 n < 5 * caps := by
  have hm : (0 : ℚ) < ((max 1 n : ℕ) : ℚ) := by
    have h0 : 0 < max 1 n := by omega
    exact_mod_cast h0
  rw [div_lt_div_iff₀ (by norm_num) hm]
  rw [show (3 : ℚ) * ((max 1 n : ℕ) : ℚ) = ((3 * max 1 n : ℕ) : ℚ) by push_cast; ring]
  rw [show ((caps : ℕ) : ℚ) * 5 = ((5 * caps : ℕ) : ℚ) by push_cast; ring]
  exact Nat.cast_lt

lemma titleCase_iff (line : List Char) :
    titleCaseB (pyStrip line) = true ↔ TitleCaseSpec line := by
  unfold titleCaseB TitleCaseSpec
  split
  · rename_i hlen
    dsimp only
    rw [ratio_gt_iff]
    simp only [Bool.and_eq_true, decide_eq_true_eq]
    constructor
    · rintro ⟨h1, h2⟩
      exact ⟨hlen, h1, h2⟩
    · rintro ⟨-, h1, h2⟩
      exact ⟨h1, h2⟩
  · rename_i hlen
    simp only [Bool.false_eq_true, false_iff]
    rintro ⟨h1, -, -⟩
    exact hlen h1

/-- C2 (amended): on a newline-free line (the only inputs the extractor feeds
it, one element of `splitlines`), `is_heading_line` accepts exactly the lines
satisfying one of the three spec heuristics, with heuristic 1 read as the
code's `(?i)` flag implements it: the word `section` in any letter case,
followed by an integer enumerator and then a word starting with a letter of
either case (not necessarily capitalized). -/
theorem C2_heading_heuristics (line : String) (_hnl : '\n' ∉ line.data) :
    is_heading_line line = true ↔
      CIEnumHeading line.data ∨ AllCapsSpec line.data ∨ TitleCaseSpec line.data := by
  unfold is_heading_line
  split
  · rename_i hpe
    exact ⟨fun _ => Or.inl ((parseEnum_iff _).mp hpe), fun _ => rfl⟩
  · rename_i hpe
    dsimp only
    split
    · rename_i hac
      exact ⟨fun _ => Or.inr (Or.inl ((allCaps_branch _).mp hac)), fun _ => rfl⟩
    · rename_i hac
      constructor
      · intro ht
        exact Or.inr (Or.inr ((titleCase_iff _).mp ht))
      · rintro (h1 | h2 | h3)
        · exact absurd ((parseEnum_iff _).mpr h1) hpe
        · exact absurd ((allCaps_branch _).mpr h2) hac
        · exact (titleCase_iff _).mpr h3

lemma specEnum_has_upper {s : List Char} (h : SpecEnumHeading s) :
    ∃ x ∈ s, x.isUpper = true := by
  obtain ⟨w1, t, w2, ds, g, w3, c, rest, heq, -, -, -, -, -, -, -, -, -, hcu⟩ := h
  refine ⟨c, ?_, hcu⟩
  rw [heq]
  simp

unseal eatDotGroups pySplit in
/-- C2: counterexample to the claim as stated.  The line `"section 1 thing"`
is accepted by the code's heading detector — the `(?i)` flag of
`SECTION_HEADING_PATTERN` makes both `Section` and the class `[A-Z]`
case-insensitive — yet it satisfies none of the three heuristics as the spec
words them: the word following the enumerator is not capitalized (even reading
`Section` itself case-insensitively), the line is not all-caps, and zero of
its three words begin with an uppercase letter. -/
theorem C2_heading_counterexample :
    is_heading_line "section 1 thing" = true ∧
      ¬ (SpecEnumHeading "section 1 thing".data ∨
          AllCapsSpec "section 1 thing".data ∨
          TitleCaseSpec "section 1 thing".data) := by
  constructor
  · decide
  · rintro (h1 | h2 | h3)
    · exact absurd (specEnum_has_upper h1) (by decide)
    · exact absurd h2 (by unfold AllCapsSpec; decide)
    · rcases h3 with ⟨-, -, hr⟩
      exact absurd ((ratio_gt_iff _ _).mp hr) (by decide)

/-- Witness for C2: the amended equivalence applied to a concrete line. -/
theorem C2_heading_heuristics_witness :
    '\n' ∉ "SECTION 4.1 RESTRICTED PAYMENTS".data ∧
      (is_heading_line "SECTION 4.1 RESTRICTED PAYMENTS" = true ↔
        CIEnumHeading "SECTION 4.1 RESTRICTED PAYMENTS".data ∨
          AllCapsSpec "SECTION 4.1 RESTRICTED PAYMENTS".data ∨
          TitleCaseSpec "SECTION 4.1 RESTRICTED PAYMENTS".data) :=
  ⟨by decide, C2_heading_heuristics _ (by decide)⟩
